import Mathlib

/-!
Verification development for the `deck` package manager (crates `deck-core`,
`deck-store` and friends).

Rust strings are modelled as `List Nat` of Unicode code points (all inputs of
interest are ASCII, where code points and UTF-8 bytes coincide, so Rust's
byte-based `str::len` equals list length).  Machine integers are `Nat` with
explicit `% 2^64` where overflow matters.  Fallible Rust functions returning
`Result<T, E>` become `Option`/`Except` valued Lean functions.
-/

set_option maxRecDepth 10000

namespace Deck

/-- Code points of a string literal, the bridge between readable literals and
the `List Nat` representation used throughout. -/
def str (s : String) : List Nat :=
  s.toList.map Char.toNat

/-- ASCII-range uppercasing, the restriction of Rust's `str::to_uppercase`
to the code points exercised here. -/
def toUpperN (n : Nat) : Nat :=
  if 97 ≤ n ∧ n ≤ 122 then n - 32 else n

/-- ASCII-range lowercasing, the restriction of Rust's `str::to_lowercase`
to the code points exercised here. -/
def toLowerN (n : Nat) : Nat :=
  if 65 ≤ n ∧ n ≤ 90 then n + 32 else n

/-! ## Positional digits

Generic little-endian digit expansion, used to embed the `data_encoding`
crate's RFC 4648 base-32 codec (no padding) on exactly-20-byte inputs: such an
input is 160 bits, which base 32 renders as exactly 32 five-bit digits, so the
grouped RFC codec coincides with the big-endian digit expansion of the whole
byte string read as one number. -/

/-- Little-endian digits of `n` in the given base, padded/truncated to `k`
digits. -/
def digitsLE (base k n : Nat) : List Nat :=
  match k with
  | 0 => []
  | k + 1 => n % base :: digitsLE base k (n / base)

/-- Value of a little-endian digit list in the given base. -/
def valLE (base : Nat) : List Nat → Nat
  | [] => 0
  | d :: ds => d + base * valLE base ds

/-- Big-endian digits of `n`: `k` digits in the given base. -/
def digitsBE (base k n : Nat) : List Nat :=
  (digitsLE base k n).reverse

/-- Value of a big-endian digit list in the given base. -/
def valBE (base : Nat) (ds : List Nat) : Nat :=
  valLE base ds.reverse

theorem digitsLE_length (base k n : Nat) : (digitsLE base k n).length = k := by
  induction k generalizing n with
  | zero => rfl
  | succ k ih => simp [digitsLE, ih]

theorem digitsBE_length (base k n : Nat) : (digitsBE base k n).length = k := by
  simp [digitsBE, digitsLE_length]

theorem digitsLE_lt (base k n : Nat) (hb : 0 < base) :
    ∀ d ∈ digitsLE base k n, d < base := by
  induction k generalizing n with
  | zero => intro d hd; simp [digitsLE] at hd
  | succ k ih =>
    intro d hd
    simp only [digitsLE, List.mem_cons] at hd
    rcases hd with h | h
    · exact h ▸ Nat.mod_lt _ hb
    · exact ih _ d h

theorem digitsBE_lt (base k n : Nat) (hb : 0 < base) :
    ∀ d ∈ digitsBE base k n, d < base := by
  intro d hd
  exact digitsLE_lt base k n hb d (List.mem_reverse.mp hd)

theorem valLE_digitsLE (base k n : Nat) (hn : n < base ^ k) :
    valLE base (digitsLE base k n) = n := by
  induction k generalizing n with
  | zero =>
    rw [Nat.pow_zero] at hn
    interval_cases n
    rfl
  | succ k ih =>
    have hb : 0 < base := by
      rcases Nat.eq_zero_or_pos base with h | h
      · subst h; simp at hn
      · exact h
    have hdiv : n / base < base ^ k := by
      rw [Nat.div_lt_iff_lt_mul hb]
      calc n < base ^ (k + 1) := hn
        _ = base ^ k * base := by rw [Nat.pow_succ]
    simp only [digitsLE, valLE, ih (n / base) hdiv]
    exact Nat.mod_add_div n base

theorem digitsLE_valLE (base : Nat) (ds : List Nat) (hd : ∀ d ∈ ds, d < base) :
    digitsLE base ds.length (valLE base ds) = ds := by
  induction ds with
  | nil => rfl
  | cons d ds ih =>
    have hdb : d < base := hd d (List.mem_cons_self d ds)
    have hb : 0 < base := Nat.pos_of_ne_zero (by omega)
    have hmod : (d + base * valLE base ds) % base = d := by
      rw [Nat.add_mul_mod_self_left, Nat.mod_eq_of_lt hdb]
    have hdivv : (d + base * valLE base ds) / base = valLE base ds := by
      rw [Nat.add_mul_div_left _ _ hb, Nat.div_eq_of_lt hdb]
      omega
    simp only [List.length_cons, digitsLE, valLE, hmod, hdivv]
    exact congrArg _ (ih fun x hx => hd x (List.mem_cons_of_mem d hx))

theorem valLE_lt (base : Nat) (ds : List Nat) (hd : ∀ d ∈ ds, d < base) :
    valLE base ds < base ^ ds.length := by
  induction ds with
  | nil => simp [valLE]
  | cons d ds ih =>
    have hdb : d < base := hd d (List.mem_cons_self d ds)
    have htail : valLE base ds < base ^ ds.length :=
      ih fun x hx => hd x (List.mem_cons_of_mem d hx)
    simp only [valLE, List.length_cons, Nat.pow_succ]
    calc d + base * valLE base ds
        < base + base * valLE base ds := by omega
      _ = base * (valLE base ds + 1) := by ring
      _ ≤ base * base ^ ds.length := by
          exact Nat.mul_le_mul_left base (by omega)
      _ = base ^ ds.length * base := by ring

theorem valBE_digitsBE (base k n : Nat) (hn : n < base ^ k) :
    valBE base (digitsBE base k n) = n := by
  simp [valBE, digitsBE, List.reverse_reverse, valLE_digitsLE base k n hn]

theorem digitsBE_valBE (base : Nat) (ds : List Nat) (hd : ∀ d ∈ ds, d < base) :
    digitsBE base ds.length (valBE base ds) = ds := by
  have h := digitsLE_valLE base ds.reverse (by
    intro d hdm
    exact hd d (List.mem_reverse.mp hdm))
  simp only [List.length_reverse] at h
  simp [digitsBE, valBE, h]

theorem valBE_lt (base : Nat) (ds : List Nat) (hd : ∀ d ∈ ds, d < base) :
    valBE base ds < base ^ ds.length := by
  have h := valLE_lt base ds.reverse (by
    intro d hdm
    exact hd d (List.mem_reverse.mp hdm))
  simpa [valBE] using h

/-! ## Hash (`deck-core/src/hash.rs` and `deck-store/src/hash.rs`, identical)

A `Hash` is a 20-byte digest.  `Display` renders it as lower-case unpadded
base-32; `FromStr` upper-cases the input, base-32-decodes it and requires the
textual length to be exactly `BASE32_NOPAD.encode_len(20) = 32`. -/

/-- HASH_LENGTH from the source: digests are 20 bytes. -/
def HASH_LENGTH : Nat := 20

/-- Hash as in the source: a 20-byte digest (`[u8; 20]`). -/
def Hash : Type := { bytes : List Nat // bytes.length = HASH_LENGTH ∧ ∀ b ∈ bytes, b < 256 }

instance : DecidableEq Hash := fun a b =>
  decidable_of_iff (a.val = b.val) Subtype.ext_iff.symm

/-- Value of an RFC 4648 base-32 digit as an upper-case code point
(the `data_encoding` BASE32 alphabet `A`–`Z`, `2`–`7`). -/
def b32Char (d : Nat) : Nat :=
  if d < 26 then 65 + d else 24 + d

/-- Decode one upper-case base-32 character to its 5-bit value. -/
def b32Val (c : Nat) : Option Nat :=
  if 65 ≤ c ∧ c ≤ 90 then some (c - 65)
  else if 50 ≤ c ∧ c ≤ 55 then some (c - 24)
  else none

/-- `BASE32_NOPAD.encode` on a 20-byte input: the 160-bit value spelled as 32
big-endian 5-bit digits (exactly the grouped RFC 4648 codec on a multiple of
5 bytes), upper-case. -/
def base32Encode (bytes : List Nat) : List Nat :=
  (digitsBE 32 32 (valBE 256 bytes)).map b32Char

/-- Decode a list of base-32 characters to their 5-bit values, failing on the
first invalid character (the `data_encoding` decode path). -/
def b32Decode : List Nat → Option (List Nat)
  | [] => some []
  | c :: cs =>
    match b32Val c, b32Decode cs with
    | some d, some ds => some (d :: ds)
    | _, _ => none

namespace Hash

/-- `impl Display for Hash`: base-32 encode and lower-case the result. -/
def toText (h : Hash) : List Nat :=
  (base32Encode h.val).map toLowerN

/-- `impl FromStr for Hash`: upper-case the input, base-32 decode it, and
accept only when the input length is `encode_len(20) = 32`.  (The source
decodes first and length-checks second; both orders accept exactly the
length-32 strings of valid base-32 characters.) -/
def fromStr (s : List Nat) : Option Hash :=
  match b32Decode (s.map toUpperN) with
  | none => none
  | some ds =>
    if h : s.length = 32 then
      some ⟨digitsBE 256 HASH_LENGTH (valBE 32 ds),
        ⟨digitsBE_length _ _ _, digitsBE_lt _ _ _ (by omega)⟩⟩
    else none

end Hash

theorem b32Char_lt (d : Nat) (hd : d < 32) : 65 ≤ b32Char d ∧ b32Char d ≤ 90 ∨
    50 ≤ b32Char d ∧ b32Char d ≤ 55 := by
  unfold b32Char
  split <;> omega

theorem b32Val_b32Char (d : Nat) (hd : d < 32) : b32Val (b32Char d) = some d := by
  unfold b32Val b32Char
  split <;> split <;> simp_all <;> omega

theorem toUpperN_toLowerN_b32Char (d : Nat) (hd : d < 32) :
    toUpperN (toLowerN (b32Char d)) = b32Char d := by
  unfold toUpperN toLowerN b32Char
  split <;> split <;> split <;> omega

theorem b32Decode_map_b32Char (ds : List Nat) (hds : ∀ d ∈ ds, d < 32) :
    b32Decode (ds.map b32Char) = some ds := by
  induction ds with
  | nil => rfl
  | cons d ds ih =>
    have h1 : b32Val (b32Char d) = some d :=
      b32Val_b32Char d (hds d (List.mem_cons_self d ds))
    have h2 : b32Decode (ds.map b32Char) = some ds :=
      ih fun x hx => hds x (List.mem_cons_of_mem d hx)
    simp [b32Decode, h1, h2]

/-- Round-trip core: decoding the (upper-cased) lower-case rendering of a
well-formed 20-byte digest recovers the digest. -/
theorem hash_fromStr_toText (h : Hash) : Hash.fromStr (Hash.toText h) = some h := by
  obtain ⟨bytes, hlen, hlt⟩ := h
  have hval : valBE 256 bytes < 32 ^ 32 := by
    have := valBE_lt 256 bytes hlt
    rw [hlen] at this
    calc valBE 256 bytes < 256 ^ HASH_LENGTH := this
      _ = 32 ^ 32 := by norm_num [HASH_LENGTH]
  set n := valBE 256 bytes with hn
  have hdig : ∀ d ∈ digitsBE 32 32 n, d < 32 := digitsBE_lt 32 32 n (by omega)
  have hup : (((digitsBE 32 32 n).map b32Char).map toLowerN).map toUpperN
      = (digitsBE 32 32 n).map b32Char := by
    rw [List.map_map, List.map_map]
    apply List.map_congr_left
    intro d hd
    exact toUpperN_toLowerN_b32Char d (hdig d hd)
  have hdec : b32Decode ((digitsBE 32 32 n).map b32Char) = some (digitsBE 32 32 n) :=
    b32Decode_map_b32Char _ hdig
  have hlen32 : (((digitsBE 32 32 n).map b32Char).map toLowerN).length = 32 := by
    simp [digitsBE_length]
  have hrec : valBE 32 (digitsBE 32 32 n) = n := valBE_digitsBE 32 32 n hval
  have hbytes : digitsBE 256 HASH_LENGTH n = bytes := by
    have := digitsBE_valBE 256 bytes hlt
    rw [hlen] at this
    rw [hn, this]
  simp only [Hash.toText, Hash.fromStr, base32Encode, hup, hdec, hlen32, dif_pos, hrec, hbytes]

theorem b32Decode_mem_isSome (l ds : List Nat) (h : b32Decode l = some ds) :
    ∀ c ∈ l, (b32Val c).isSome := by
  induction l generalizing ds with
  | nil => intro c hc; simp at hc
  | cons c cs ih =>
    intro x hx
    simp only [b32Decode] at h
    rcases hv : b32Val c with _ | d <;> rw [hv] at h
    · exact absurd h (by simp)
    rcases hrest : b32Decode cs with _ | ds' <;> rw [hrest] at h
    · exact absurd h (by simp)
    rcases List.mem_cons.mp hx with rfl | hmem
    · simp [hv]
    · exact ih ds' hrest x hmem

theorem b32Val_isSome_range (c : Nat) (h : (b32Val c).isSome) :
    (65 ≤ c ∧ c ≤ 90) ∨ (50 ≤ c ∧ c ≤ 55) := by
  unfold b32Val at h
  split_ifs at h with h1 h2
  · exact Or.inl h1
  · exact Or.inr h2
  · simp at h

theorem toUpperN_idem_of_b32 (c : Nat) (h : (b32Val (toUpperN c)).isSome) :
    toUpperN (toUpperN c) = toUpperN c := by
  have hu := b32Val_isSome_range _ h
  unfold toUpperN at hu ⊢
  split_ifs at hu ⊢ <;> omega

theorem toUpperN_toLowerN_of_b32 (c : Nat) (h : (b32Val (toUpperN c)).isSome) :
    toUpperN (toLowerN c) = toUpperN c := by
  have hu := b32Val_isSome_range _ h
  unfold toUpperN at hu
  unfold toUpperN toLowerN
  split_ifs at hu ⊢ <;> omega

/-- Case-insensitivity of parsing: whenever a string parses to a hash, so do
its upper-cased and lower-cased forms, to the same hash. -/
theorem hash_fromStr_case_insensitive (s : List Nat) (x : Hash)
    (h : Hash.fromStr s = some x) :
    Hash.fromStr (s.map toUpperN) = some x ∧ Hash.fromStr (s.map toLowerN) = some x := by
  unfold Hash.fromStr at h ⊢
  rcases hdec : b32Decode (s.map toUpperN) with _ | ds <;> rw [hdec] at h
  · exact absurd h (by simp)
  have hsome : ∀ c ∈ s.map toUpperN, (b32Val c).isSome := b32Decode_mem_isSome _ _ hdec
  have hup : (s.map toUpperN).map toUpperN = s.map toUpperN := by
    rw [List.map_map]
    apply List.map_congr_left
    intro c hc
    exact toUpperN_idem_of_b32 c (hsome (toUpperN c) (List.mem_map_of_mem _ hc))
  have hlow : (s.map toLowerN).map toUpperN = s.map toUpperN := by
    rw [List.map_map]
    apply List.map_congr_left
    intro c hc
    exact toUpperN_toLowerN_of_b32 c (hsome (toUpperN c) (List.mem_map_of_mem _ hc))
  constructor
  · rw [hup, hdec]
    simpa using h
  · rw [hlow, hdec]
    simpa using h

/-- The example digest `fc3j3vub6kodu4jtfoakfs5xhumqi62m` as raw bytes. -/
def fc3Hash : Hash :=
  ⟨[40, 182, 157, 214, 129, 242, 156, 58, 113, 51, 43, 128, 162, 203, 183, 61,
    25, 4, 123, 76], by decide⟩

theorem hash_toText_length (h : Hash) : (Hash.toText h).length = 32 := by
  simp [Hash.toText, base32Encode, digitsBE_length]

theorem hash_toText_chars (h : Hash) :
    ∀ c ∈ Hash.toText h, (97 ≤ c ∧ c ≤ 122) ∨ (50 ≤ c ∧ c ≤ 55) := by
  intro c hc
  simp only [Hash.toText, base32Encode, List.map_map, List.mem_map] at hc
  obtain ⟨d, hd, rfl⟩ := hc
  have hd32 : d < 32 := digitsBE_lt 32 32 _ (by omega) d hd
  simp only [Function.comp_apply]
  unfold b32Char toLowerN
  split <;> split <;> omega

/-- C9: for every `Hash h`, parsing `h.to_string()` returns `h`; parsing is
case-insensitive (any string that parses still parses, to the same hash, after
upper-casing or lower-casing); and the display form is unpadded lower-case
base-32 (32 characters drawn from `a`–`z`, `2`–`7`, hence no `=` padding). -/
theorem hash_display_parse_roundtrip :
    (∀ h : Hash, Hash.fromStr (Hash.toText h) = some h) ∧
    (∀ s : List Nat, ∀ x : Hash, Hash.fromStr s = some x →
      Hash.fromStr (s.map toUpperN) = some x ∧ Hash.fromStr (s.map toLowerN) = some x) ∧
    (∀ h : Hash, (Hash.toText h).length = 32 ∧
      ∀ c ∈ Hash.toText h, (97 ≤ c ∧ c ≤ 122) ∨ (50 ≤ c ∧ c ≤ 55)) :=
  ⟨hash_fromStr_toText, hash_fromStr_case_insensitive,
    fun h => ⟨hash_toText_length h, hash_toText_chars h⟩⟩

/-- Witness for C9: the example hash string round-trips through upper- and
lower-casing at a concrete input. -/
theorem hash_display_parse_roundtrip_witness :
    Hash.fromStr ((str "fc3j3vub6kodu4jtfoakfs5xhumqi62m").map toUpperN) = some fc3Hash ∧
    Hash.fromStr ((str "fc3j3vub6kodu4jtfoakfs5xhumqi62m").map toLowerN) = some fc3Hash :=
  hash_display_parse_roundtrip.2.1 (str "fc3j3vub6kodu4jtfoakfs5xhumqi62m") fc3Hash (by decide)

/-! ## Name (`deck-core/src/name.rs` and `deck-store/src/id/name.rs`)

Both crates define `Name::new` over the same allowed-character set; only the
`deck-core` version additionally rejects the reserved literals `"."`, `".."`
and `"/"`. -/

/-- Rust's `char::is_alphanumeric`, modelled on the ASCII range (every
character exercised by the spec and the tests is ASCII). -/
def isAlphanumericN (c : Nat) : Bool :=
  (48 ≤ c && c ≤ 57) || (65 ≤ c && c ≤ 90) || (97 ≤ c && c ≤ 122)

/-- The allowed-character test shared by both `Name::new` implementations:
alphanumeric, `'-'` (45), `'_'` (95) or `'.'` (46). -/
def allowedNameChar (c : Nat) : Bool :=
  isAlphanumericN c || c == 45 || c == 95 || c == 46

namespace DeckCoreName

/-- `Name::new` from `deck-core/src/name.rs`: rejects the empty string, any
disallowed character, and the reserved literals `"."`, `".."`, `"/"`. -/
def new (s : List Nat) : Option (List Nat) :=
  if s.isEmpty then none
  else
    let allowed_chars := s.all allowedNameChar
    let reserved_names := s == str "." || s == str ".." || s == str "/"
    if !allowed_chars || reserved_names then none else some s

end DeckCoreName

namespace DeckStoreName

/-- `Name::new` from `deck-store/src/id/name.rs`: rejects the empty string and
any disallowed character; it has no reserved-literal check. -/
def new (s : List Nat) : Option (List Nat) :=
  if s.isEmpty then none
  else
    let allowed_chars := s.all allowedNameChar
    if !allowed_chars then none else some s

end DeckStoreName

/-- Wellformedness of a name string: what both `Name::new` versions check
before the reserved-literal test. -/
def validNameStr (s : List Nat) : Prop :=
  s ≠ [] ∧ ∀ c ∈ s, allowedNameChar c = true

instance validNameStr.dec (s : List Nat) : Decidable (validNameStr s) := by
  unfold validNameStr
  infer_instance

theorem deckCoreName_new_isSome (s : List Nat) :
    (DeckCoreName.new s).isSome ↔
      validNameStr s ∧ s ≠ str "." ∧ s ≠ str ".." ∧ s ≠ str "/" := by
  simp only [DeckCoreName.new, validNameStr]
  split_ifs with h1 h2
  · simp_all
  · constructor
    · intro h; simp at h
    · rintro ⟨⟨hne, hall⟩, hd1, hd2, hd3⟩
      simp only [Bool.not_eq_true', Bool.or_eq_true, Bool.not_eq_true] at h2
      rcases h2 with h2 | h2
      · exact absurd (List.all_eq_true.mpr hall) (by simp [h2])
      · simp only [Bool.or_eq_true, beq_iff_eq] at h2
        tauto
  · constructor
    · intro _
      refine ⟨⟨by simpa using h1, ?_⟩, ?_, ?_, ?_⟩
      · intro c hc
        by_contra hbad
        apply h2
        simp only [Bool.or_eq_true, Bool.not_eq_true]
        left
        simp only [Bool.not_eq_true', List.all_eq_false]
        exact ⟨c, hc, by simpa using hbad⟩
      all_goals
        intro heq
        apply h2
        simp [heq]
    · intro _; simp

theorem deckStoreName_new_isSome (s : List Nat) :
    (DeckStoreName.new s).isSome ↔ validNameStr s := by
  simp only [DeckStoreName.new, validNameStr]
  split_ifs with h1 h2
  · simp_all
  · constructor
    · intro h; simp at h
    · rintro ⟨hne, hall⟩
      have := List.all_eq_true.mpr hall
      simp [this] at h2
  · constructor
    · intro _
      refine ⟨by simpa using h1, ?_⟩
      intro c hc
      by_contra hbad
      apply h2
      simp only [Bool.not_eq_true', List.all_eq_false]
      exact ⟨c, hc, by simpa using hbad⟩
    · intro _; simp

/-- C4 counterexample: the claim says the literal `"."` fails to parse, but
`Name::new` in `deck-store/src/id/name.rs` (one of the two implementations the
claim covers) accepts it, since `'.'` is an allowed character and that
implementation has no reserved-literal check. -/
theorem name_reserved_literal_counterexample :
    DeckStoreName.new (str ".") = some (str ".") := by decide

/-- C4 (amended): `deck-core`'s `Name::new` accepts exactly the non-empty
allowed-character strings other than `"."`, `".."`, `"/"`; the `deck-store`
`id::name` version accepts exactly the non-empty allowed-character strings, so
`"."` and `".."` parse there while `"/"` is still rejected (the `'/'`
character is disallowed). -/
theorem name_parsing_characterization :
    (∀ s : List Nat, (DeckCoreName.new s).isSome ↔
      validNameStr s ∧ s ≠ str "." ∧ s ≠ str ".." ∧ s ≠ str "/") ∧
    (∀ s : List Nat, (DeckStoreName.new s).isSome ↔ validNameStr s) ∧
    DeckStoreName.new (str ".") = some (str ".") ∧
    DeckStoreName.new (str "..") = some (str "..") ∧
    DeckCoreName.new (str ".") = none ∧
    DeckCoreName.new (str "..") = none ∧
    DeckCoreName.new (str "/") = none ∧
    DeckStoreName.new (str "/") = none :=
  ⟨deckCoreName_new_isSome, deckStoreName_new_isSome,
    by decide, by decide, by decide, by decide, by decide, by decide⟩

/-- Witness for C4 (amended): both characterizations evaluated at `"foo"`. -/
theorem name_parsing_characterization_witness :
    (DeckCoreName.new (str "foo")).isSome ∧ (DeckStoreName.new (str "foo")).isSome :=
  ⟨(name_parsing_characterization.1 (str "foo")).mpr (by decide),
    (name_parsing_characterization.2.1 (str "foo")).mpr (by decide)⟩

/-! ## Split helpers

`rsplit2 sep s` mirrors Rust's `s.rsplitn(2, sep)` when both tokens are
demanded: it yields the part before and after the LAST occurrence of `sep`,
and fails when `sep` does not occur (in the source that surfaces as
`tokens.next().ok_or(())?`).  `split2 sep s` mirrors `s.splitn(2, sep)`:
everything before the FIRST occurrence, plus the optional remainder. -/

def rsplit2 (sep : Nat) : List Nat → Option (List Nat × List Nat)
  | [] => none
  | c :: cs =>
    match rsplit2 sep cs with
    | some (before, after) => some (c :: before, after)
    | none => if c = sep then some ([], cs) else none

def split2 (sep : Nat) : List Nat → List Nat × Option (List Nat)
  | [] => ([], none)
  | c :: cs =>
    if c = sep then ([], some cs)
    else
      let (before, after) := split2 sep cs
      (c :: before, after)

theorem rsplit2_eq_none (sep : Nat) (l : List Nat) (h : sep ∉ l) :
    rsplit2 sep l = none := by
  induction l with
  | nil => rfl
  | cons c cs ih =>
    have hcs : sep ∉ cs := fun hm => h (List.mem_cons_of_mem c hm)
    have hc : c ≠ sep := fun hc => h (hc ▸ List.mem_cons_self c cs)
    simp [rsplit2, ih hcs, hc]

theorem rsplit2_append (sep : Nat) (xs ys : List Nat) (h : sep ∉ ys) :
    rsplit2 sep (xs ++ sep :: ys) = some (xs, ys) := by
  induction xs with
  | nil => simp [rsplit2, rsplit2_eq_none sep ys h]
  | cons c cs ih => simp [rsplit2, ih]

theorem split2_no_sep (sep : Nat) (l : List Nat) (h : sep ∉ l) :
    split2 sep l = (l, none) := by
  induction l with
  | nil => rfl
  | cons c cs ih =>
    have hcs : sep ∉ cs := fun hm => h (List.mem_cons_of_mem c hm)
    have hc : c ≠ sep := fun hc => h (hc ▸ List.mem_cons_self c cs)
    simp [split2, hc, ih hcs]

theorem split2_append (sep : Nat) (xs ys : List Nat) (h : sep ∉ xs) :
    split2 sep (xs ++ sep :: ys) = (xs, some ys) := by
  induction xs with
  | nil => simp [split2]
  | cons c cs ih =>
    have hcs : sep ∉ cs := fun hm => h (List.mem_cons_of_mem c hm)
    have hc : c ≠ sep := fun hc => h (hc ▸ List.mem_cons_self c cs)
    simp [split2, hc, ih hcs]

/-! ## ManifestId and OutputId (`deck-store/src/id/manifest.rs`, `output.rs`)

Rendered `name@version-hash` and `name@version[:output]-hash` respectively;
`'@'` is 64, `':'` is 58, `'-'` is 45. -/

structure ManifestId where
  name : List Nat
  version : List Nat
  hash : Hash
deriving DecidableEq

namespace ManifestId

/-- `impl Display for ManifestId`: `name@version-hash`. -/
def toText (m : ManifestId) : List Nat :=
  m.name ++ 64 :: m.version ++ 45 :: Hash.toText m.hash

/-- `ManifestId::parse`: validate name through `deck-store`'s `Name::new`,
keep the version verbatim, parse the hash. -/
def parse (name version hash : List Nat) : Option ManifestId :=
  match DeckStoreName.new name, Hash.fromStr hash with
  | some n, some h => some ⟨n, version, h⟩
  | _, _ => none

/-- `impl FromStr for ManifestId`: right-split once on `'-'` for the hash,
right-split the remainder once on `'@'` for the version. -/
def fromStr (s : List Nat) : Option ManifestId :=
  match rsplit2 45 s with
  | none => none
  | some (remainder, hash) =>
    match rsplit2 64 remainder with
    | none => none
    | some (name, version) => parse name version hash

/-- `ManifestId::is_same_package`: an output belongs to this package when the
name and version both match. -/
def is_same_package (m : ManifestId) (name version : List Nat) : Bool :=
  m.name == name && m.version == version

end ManifestId

structure OutputId where
  name : List Nat
  version : List Nat
  output : Option (List Nat)
  hash : Hash
deriving DecidableEq

namespace OutputId

/-- `impl Display for OutputId`: `name@version[:output]-hash`. -/
def toText (o : OutputId) : List Nat :=
  o.name ++ 64 :: (o.version ++
    (match o.output with
     | some out => 58 :: out
     | none => []) ++ 45 :: Hash.toText o.hash)

/-- `OutputId::parse`: validate name and optional output slot through
`deck-store`'s `Name::new`, keep the version verbatim, parse the hash. -/
def parse (name version : List Nat) (output : Option (List Nat)) (hash : List Nat) :
    Option OutputId :=
  match output with
  | some out =>
    match DeckStoreName.new name, DeckStoreName.new out, Hash.fromStr hash with
    | some n, some o, some h => some ⟨n, version, some o, h⟩
    | _, _, _ => none
  | none =>
    match DeckStoreName.new name, Hash.fromStr hash with
    | some n, some h => some ⟨n, version, none, h⟩
    | _, _ => none

/-- `impl FromStr for OutputId`: right-split once on `'-'` for the hash,
right-split on `'@'`, then split the identifier once on `':'` for the
optional output slot. -/
def fromStr (s : List Nat) : Option OutputId :=
  match rsplit2 45 s with
  | none => none
  | some (remainder, hash) =>
    match rsplit2 64 remainder with
    | none => none
    | some (name, identifier) =>
      let (version, output) := split2 58 identifier
      parse name version output hash

end OutputId

theorem allowedNameChar_ranges (c : Nat) (h : allowedNameChar c = true) :
    c ≠ 64 ∧ c ≠ 58 ∧ c ≠ 47 := by
  simp only [allowedNameChar, isAlphanumericN, Bool.or_eq_true, Bool.and_eq_true,
    decide_eq_true_eq, beq_iff_eq] at h
  omega

theorem hashText_sep_free (h : Hash) :
    ∀ c ∈ Hash.toText h, c ≠ 45 ∧ c ≠ 58 ∧ c ≠ 64 := by
  intro c hc
  have := hash_toText_chars h c hc
  omega

theorem deckStoreName_new_eq_some (s : List Nat) (h : validNameStr s) :
    DeckStoreName.new s = some s := by
  obtain ⟨hne, hall⟩ := h
  have hempty : s.isEmpty = false := by
    cases s with
    | nil => exact absurd rfl hne
    | cons c cs => rfl
  have hallb : s.all allowedNameChar = true := List.all_eq_true.mpr hall
  simp [DeckStoreName.new, hempty, hallb]

/-- C8 counterexample: `OutputId::new` accepts any version string, and the
value `foo@(1:0)-fc3j…` built from version `"1:0"` with no output slot renders
with a `':'` and does not survive a parse/display round trip, because the
parser claims everything after the first `':'` of the identifier as an output
slot.  (58 is `':'`.) -/
theorem outputId_roundtrip_counterexample :
    (OutputId.mk (str "foo") (str "1:0") none fc3Hash).output = none ∧
    58 ∈ OutputId.toText (OutputId.mk (str "foo") (str "1:0") none fc3Hash) ∧
    OutputId.fromStr (OutputId.toText (OutputId.mk (str "foo") (str "1:0") none fc3Hash)) ≠
      some (OutputId.mk (str "foo") (str "1:0") none fc3Hash) := by decide

/-- C8 (amended): for every `OutputId` whose version string contains neither
`'@'` nor `':'` (in particular every `OutputId` obtained from parsing),
parsing the rendered `name@version[:slot]-hash` text yields the same id back,
and when the output slot is `None` the text contains no `':'`.  The
unrestricted claim fails: `OutputId::new` also accepts versions containing
`':'` or `'@'`, for which the round trip breaks. -/
theorem outputId_display_parse_roundtrip (o : OutputId)
    (hname : validNameStr o.name)
    (hout : ∀ out, o.output = some out → validNameStr out)
    (hv64 : 64 ∉ o.version) (hv58 : 58 ∉ o.version) :
    OutputId.fromStr (OutputId.toText o) = some o ∧
      (o.output = none → 58 ∉ OutputId.toText o) := by
  obtain ⟨name, version, output, hash⟩ := o
  simp only at hname hout hv64 hv58
  have hname_some : DeckStoreName.new name = some name := deckStoreName_new_eq_some _ hname
  have hhash : Hash.fromStr (Hash.toText hash) = some hash := hash_fromStr_toText hash
  constructor
  · -- parse (display o) = some o
    have h45 : 45 ∉ Hash.toText hash := fun hm => (hashText_sep_free hash 45 hm).1 rfl
    cases output with
    | none =>
      have step1 : rsplit2 45 (OutputId.toText ⟨name, version, none, hash⟩) =
          some (name ++ 64 :: version, Hash.toText hash) := by
        have := rsplit2_append 45 (name ++ 64 :: version) (Hash.toText hash) h45
        simpa [OutputId.toText, List.append_assoc] using this
      have step2 : rsplit2 64 (name ++ 64 :: version) = some (name, version) :=
        rsplit2_append 64 name version hv64
      have step3 : split2 58 version = (version, none) := split2_no_sep 58 version hv58
      simp only [OutputId.fromStr, step1, step2, step3, OutputId.parse, hname_some, hhash]
    | some out =>
      have hvalid_out : validNameStr out := hout out rfl
      have hout_some : DeckStoreName.new out = some out :=
        deckStoreName_new_eq_some _ hvalid_out
      have step1 : rsplit2 45 (OutputId.toText ⟨name, version, some out, hash⟩) =
          some (name ++ 64 :: (version ++ 58 :: out), Hash.toText hash) := by
        have := rsplit2_append 45 (name ++ 64 :: (version ++ 58 :: out)) (Hash.toText hash) h45
        simpa [OutputId.toText, List.append_assoc] using this
      have h64tail : 64 ∉ version ++ 58 :: out := by
        intro hm
        rcases List.mem_append.mp hm with hm | hm
        · exact hv64 hm
        rcases List.mem_cons.mp hm with h58 | hm2
        · omega
        · exact (allowedNameChar_ranges 64 (hvalid_out.2 64 hm2)).1 rfl
      have step2 : rsplit2 64 (name ++ 64 :: (version ++ 58 :: out)) =
          some (name, version ++ 58 :: out) :=
        rsplit2_append 64 name _ h64tail
      have step3 : split2 58 (version ++ 58 :: out) = (version, some out) :=
        split2_append 58 version out hv58
      simp only [OutputId.fromStr, step1, step2, step3, OutputId.parse, hname_some,
        hout_some, hhash]
  · -- no ':' in the text when there is no output slot
    rintro rfl hm
    simp only [OutputId.toText, List.append_nil, List.mem_append, List.mem_cons] at hm
    rcases hm with hm | h64 | hm | h45 | hm
    · exact (allowedNameChar_ranges 58 (hname.2 58 hm)).2.1 rfl
    · omega
    · exact hv58 hm
    · omega
    · exact (hashText_sep_free hash 58 hm).2.1 rfl

/-- Witness for C8 (amended): the id `foobar@1.0.0:man-fc3j…` round-trips. -/
theorem outputId_display_parse_roundtrip_witness :
    OutputId.fromStr (OutputId.toText
      (OutputId.mk (str "foobar") (str "1.0.0") (some (str "man")) fc3Hash)) =
      some (OutputId.mk (str "foobar") (str "1.0.0") (some (str "man")) fc3Hash) ∧
    ((OutputId.mk (str "foobar") (str "1.0.0") (some (str "man")) fc3Hash).output = none →
      58 ∉ OutputId.toText (OutputId.mk (str "foobar") (str "1.0.0") (some (str "man")) fc3Hash)) :=
  outputId_display_parse_roundtrip
    (OutputId.mk (str "foobar") (str "1.0.0") (some (str "man")) fc3Hash)
    (by decide)
    (fun out h => (Option.some.inj h) ▸ (by decide : validNameStr (str "man")))
    (by decide) (by decide)

/-! ## Outputs (`deck-store/src/package/outputs.rs`)

The `output` array table.  In the source the entries live in a
`BTreeSet<Entry>`; we model the set as a duplicate-free list built with
`setInsert` (the set's iteration order only matters for serialization, which
below is only applied to a single-entry table). -/

/-- `BTreeSet::insert`: a no-op when an equal element is already present. -/
def setInsert {α : Type} [DecidableEq α] (e : α) (s : List α) : List α :=
  if e ∈ s then s else s ++ [e]

/-- The `Output` enum: the unnamed default output or a named output slot. -/
inductive OutputName where
  | dflt
  | named (name : List Nat)
deriving DecidableEq

/-- One serializable entry of the `output` table. -/
structure OutputsEntry where
  output_name : OutputName
  precomputed_hash : Hash
  inputs : List OutputId
deriving DecidableEq

/-- `Entry::is_default_output`. -/
def OutputsEntry.is_default_output (e : OutputsEntry) : Bool :=
  e.output_name == OutputName.dflt

namespace Outputs

/-- `Outputs::new`: a table holding just the default output. -/
def new (precomputed_hash : Hash) (inputs : List OutputId) : List OutputsEntry :=
  [⟨OutputName.dflt, precomputed_hash, inputs.foldl (fun s i => setInsert i s) []⟩]

/-- `Outputs::append`: insert a named output entry. -/
def append (s : List OutputsEntry) (name : List Nat) (precomputed_hash : Hash)
    (inputs : List OutputId) : List OutputsEntry :=
  setInsert ⟨OutputName.named name, precomputed_hash,
    inputs.foldl (fun acc i => setInsert i acc) []⟩ s

/-- Number of default entries in the table. -/
def numDefaults (s : List OutputsEntry) : Nat :=
  (s.filter (fun e => e.is_default_output)).length

/-- `impl Deserialize for Outputs` (`visit_seq`): insert every parsed entry
into a fresh set, then accept exactly when the set holds one default entry
(zero defaults and multiple distinct defaults are rejected). -/
def deserialize (entries : List OutputsEntry) : Option (List OutputsEntry) :=
  let set := entries.foldl (fun acc e => setInsert e acc) []
  if numDefaults set = 1 then some set else none

end Outputs

theorem numDefaults_setInsert_named (e : OutputsEntry) (s : List OutputsEntry)
    (h : e.is_default_output = false) :
    Outputs.numDefaults (setInsert e s) = Outputs.numDefaults s := by
  unfold setInsert Outputs.numDefaults
  split
  · rfl
  · simp [List.filter_append, h]

theorem numDefaults_foldl_appends
    (appends : List ((List Nat) × Hash × List OutputId)) (s : List OutputsEntry)
    (hs : Outputs.numDefaults s = 1) :
    Outputs.numDefaults
      (appends.foldl (fun acc a => Outputs.append acc a.1 a.2.1 a.2.2) s) = 1 := by
  induction appends generalizing s with
  | nil => exact hs
  | cons a as ih =>
    rw [List.foldl_cons]
    apply ih
    rw [Outputs.append, numDefaults_setInsert_named _ _ (by rfl)]
    exact hs

/-- C7 counterexample: a TOML `output` list repeating the SAME default entry
twice deserializes successfully, because `visit_seq` collapses the entries in
a `BTreeSet` before counting defaults; the claim says any list with more than
one default entry fails to deserialize. -/
theorem outputs_single_default_counterexample :
    Outputs.deserialize [⟨OutputName.dflt, fc3Hash, []⟩, ⟨OutputName.dflt, fc3Hash, []⟩] =
      some [⟨OutputName.dflt, fc3Hash, []⟩] := by decide

/-- C7 (amended): deserialization of an `output` table succeeds exactly when
the deduplicated set of its entries contains exactly one default entry, so it
fails when the list has zero defaults or two DISTINCT default entries, while a
list repeating one identical default entry collapses and is accepted; and
every table built programmatically (`Outputs::new` followed by any sequence
of `append`s, which only add named entries) holds exactly one default
entry. -/
theorem outputs_single_default :
    (∀ entries : List OutputsEntry,
      (Outputs.deserialize entries).isSome ↔
        Outputs.numDefaults (entries.foldl (fun acc e => setInsert e acc) []) = 1) ∧
    (∀ h : Hash, ∀ inputs : List OutputId,
      ∀ appends : List ((List Nat) × Hash × List OutputId),
      Outputs.numDefaults
        (appends.foldl (fun s a => Outputs.append s a.1 a.2.1 a.2.2) (Outputs.new h inputs))
        = 1) := by
  constructor
  · intro entries
    simp only [Outputs.deserialize]
    split <;> simp_all
  · intro h inputs appends
    apply numDefaults_foldl_appends
    simp [Outputs.new, Outputs.numDefaults, OutputsEntry.is_default_output]

/-- Witness for C7 (amended): a one-default table deserializes, and one
append keeps exactly one default. -/
theorem outputs_single_default_witness :
    (Outputs.deserialize [⟨OutputName.dflt, fc3Hash, []⟩]).isSome ∧
    Outputs.numDefaults
      ([(str "doc", fc3Hash, ([] : List OutputId))].foldl
        (fun s a => Outputs.append s a.1 a.2.1 a.2.2) (Outputs.new fc3Hash [])) = 1 :=
  ⟨(outputs_single_default.1 [⟨OutputName.dflt, fc3Hash, []⟩]).mpr (by decide),
    outputs_single_default.2 fc3Hash [] [(str "doc", fc3Hash, [])]⟩

/-! ## Manifest and ManifestBuilder (`deck-store/src/package/manifest.rs`)

The dependency fields are `BTreeSet<ManifestId>` in the source; we model them
as duplicate-free lists via `setInsert` (iteration order is irrelevant to the
properties below: the sets are empty wherever serialization order could be
observed). -/

/-- The `Source` enum from `deck-store/src/package/sources.rs`. -/
inductive Source where
  | uri (uri hash : List Nat)
  | git
deriving DecidableEq

/-- The `package` table of a manifest. -/
structure Package where
  name : List Nat
  version : List Nat
  dependencies : List ManifestId
  build_dependencies : List ManifestId
  dev_dependencies : List ManifestId
deriving DecidableEq

/-- A reproducible package manifest. -/
structure Manifest where
  package : Package
  env : List (List Nat × List Nat)
  outputs : List OutputsEntry
  sources : List Source
deriving DecidableEq

namespace Manifest

/-- `Manifest::dependencies`: the runtime dependencies. -/
def dependencies (m : Manifest) : List ManifestId :=
  m.package.dependencies

/-- `Manifest::outputs` via `Outputs::iter_with`: one `OutputId` per entry,
synthesized from the package name and version plus the entry's slot name and
precomputed hash. -/
def outputIds (m : Manifest) : List OutputId :=
  m.outputs.map fun e =>
    ⟨m.package.name, m.package.version,
      (match e.output_name with
       | OutputName.dflt => none
       | OutputName.named n => some n), e.precomputed_hash⟩

end Manifest

/-- Builder for new `Manifest`s; the `package` and `outputs` fields hold the
`Result` of the two validating parses done in `ManifestBuilder::new`. -/
structure ManifestBuilder where
  package : Option Package
  env : List (List Nat × List Nat)
  sources : List Source
  outputs : Option (List OutputsEntry)

namespace ManifestBuilder

/-- `ManifestBuilder::new` (also `Manifest::build`): parse the name through
`Name::new` and the main output hash through `Hash::from_str`, recording
failure in the respective field. -/
def new (name version main_output_hash : List Nat) (inputs : List OutputId) :
    ManifestBuilder :=
  { package := (DeckStoreName.new name).map fun n =>
      ⟨n, version, [], [], []⟩,
    env := [],
    sources := [],
    outputs := (Hash.fromStr main_output_hash).map fun h => Outputs.new h inputs }

/-- `ManifestBuilder::dependency`: silently a no-op when the pending package
is invalid. -/
def dependency (b : ManifestBuilder) (id : ManifestId) : ManifestBuilder :=
  { b with package := b.package.map fun p =>
      { p with dependencies := setInsert id p.dependencies } }

/-- `ManifestBuilder::build_dependency`. -/
def build_dependency (b : ManifestBuilder) (id : ManifestId) : ManifestBuilder :=
  { b with package := b.package.map fun p =>
      { p with build_dependencies := setInsert id p.build_dependencies } }

/-- `ManifestBuilder::dev_dependency`. -/
def dev_dependency (b : ManifestBuilder) (id : ManifestId) : ManifestBuilder :=
  { b with package := b.package.map fun p =>
      { p with dev_dependencies := setInsert id p.dev_dependencies } }

/-- `ManifestBuilder::output`: append a named output; silently a no-op when
the pending outputs table is invalid. -/
def output (b : ManifestBuilder) (name : List Nat) (precomputed_hash : Hash)
    (inputs : List OutputId) : ManifestBuilder :=
  { b with outputs := b.outputs.map fun o => Outputs.append o name precomputed_hash inputs }

/-- `ManifestBuilder::source`: always inserts. -/
def source (b : ManifestBuilder) (src : Source) : ManifestBuilder :=
  { b with sources := setInsert src b.sources }

/-- `ManifestBuilder::finish`: propagate the two stored parse results. -/
def finish (b : ManifestBuilder) : Option Manifest :=
  match b.package, b.outputs with
  | some p, some o => some ⟨p, b.env, o, b.sources⟩
  | _, _ => none

end ManifestBuilder

/-- One intermediate builder call, as data. -/
inductive BuilderOp where
  | dependency (id : ManifestId)
  | build_dependency (id : ManifestId)
  | dev_dependency (id : ManifestId)
  | output (name : List Nat) (precomputed_hash : Hash) (inputs : List OutputId)
  | source (src : Source)

/-- Apply one builder call. -/
def applyOp (b : ManifestBuilder) : BuilderOp → ManifestBuilder
  | BuilderOp.dependency id => b.dependency id
  | BuilderOp.build_dependency id => b.build_dependency id
  | BuilderOp.dev_dependency id => b.dev_dependency id
  | BuilderOp.output n h i => b.output n h i
  | BuilderOp.source s => b.source s

theorem applyOp_package_isSome (b : ManifestBuilder) (op : BuilderOp) :
    ((applyOp b op).package).isSome = b.package.isSome := by
  cases op <;> simp [applyOp, ManifestBuilder.dependency, ManifestBuilder.build_dependency,
    ManifestBuilder.dev_dependency, ManifestBuilder.output, ManifestBuilder.source]

theorem applyOp_outputs_isSome (b : ManifestBuilder) (op : BuilderOp) :
    ((applyOp b op).outputs).isSome = b.outputs.isSome := by
  cases op <;> simp [applyOp, ManifestBuilder.dependency, ManifestBuilder.build_dependency,
    ManifestBuilder.dev_dependency, ManifestBuilder.output, ManifestBuilder.source]

theorem finish_isSome (b : ManifestBuilder) :
    (b.finish).isSome ↔ b.package.isSome ∧ b.outputs.isSome := by
  unfold ManifestBuilder.finish
  rcases b.package with _ | p <;> rcases b.outputs with _ | o <;> simp

/-- C10: the intermediate `ManifestBuilder` methods are total (they silently
discard updates when the pending package or outputs state is invalid), and
after any sequence of such calls `finish()` returns a `Manifest` exactly when
the name given to `Manifest::build` parses as a `Name` and the main output
hash parses as a `Hash`; invalid inputs surface only at `finish()`. -/
theorem manifestBuilder_finish_iff (name version hash : List Nat)
    (inputs : List OutputId) (ops : List BuilderOp) :
    ((ops.foldl applyOp (ManifestBuilder.new name version hash inputs)).finish).isSome ↔
      (DeckStoreName.new name).isSome ∧ (Hash.fromStr hash).isSome := by
  rw [finish_isSome]
  have hfold : ∀ b : ManifestBuilder,
      ((ops.foldl applyOp b).package).isSome = b.package.isSome ∧
      ((ops.foldl applyOp b).outputs).isSome = b.outputs.isSome := by
    induction ops with
    | nil => intro b; exact ⟨rfl, rfl⟩
    | cons op rest ih =>
      intro b
      rw [List.foldl_cons]
      rcases ih (applyOp b op) with ⟨h1, h2⟩
      rw [h1, h2, applyOp_package_isSome, applyOp_outputs_isSome]
      exact ⟨rfl, rfl⟩
  rcases hfold (ManifestBuilder.new name version hash inputs) with ⟨h1, h2⟩
  rw [h1, h2]
  simp [ManifestBuilder.new]

/-- Witness for C10: a valid name and hash yield a manifest through a mixed
call sequence, evaluated at concrete inputs. -/
theorem manifestBuilder_finish_iff_witness :
    (((([BuilderOp.output (str "doc") fc3Hash [], BuilderOp.source Source.git]).foldl
      applyOp (ManifestBuilder.new (str "foo") (str "1.0.0")
        (str "fc3j3vub6kodu4jtfoakfs5xhumqi62m") [])).finish).isSome) :=
  (manifestBuilder_finish_iff (str "foo") (str "1.0.0")
    (str "fc3j3vub6kodu4jtfoakfs5xhumqi62m") []
    [BuilderOp.output (str "doc") fc3Hash [], BuilderOp.source Source.git]).mpr
    ⟨by decide, by decide⟩

/-! ## Store write protocol (`deck-store/src/local/dir/path.rs`)

Paths are strings (`47` is `'/'`).  The filesystem is an existence predicate
on paths.  Acquiring the exclusive lock on the lock file is a suspension
point, so `lock_writing` observes the filesystem twice: once before taking
the lock and once after; the two observations are the two `FS` arguments. -/

/-- Existence view of the filesystem. -/
def FS : Type := List Nat → Bool

/-- `PathBuf::set_extension`: replace the extension of the final path
component (or append one).  (Rust treats a leading-dot file name as
extensionless; no id path here starts with a dot.) -/
def setExtension (p ext : List Nat) : List Nat :=
  let replaceExt := fun (file : List Nat) =>
    match rsplit2 46 file with
    | some (stem, _) => stem ++ 46 :: ext
    | none => file ++ 46 :: ext
  match rsplit2 47 p with
  | some (dir, file) => dir ++ 47 :: replaceExt file
  | none => replaceExt p

/-- `DirectoryPath`: the final path under the category directory, the
in-flight path under `tmp/` and the lock-file path under `var/`. -/
structure DirectoryPath where
  root : List Nat
  temp_path : List Nat
  lock_path : List Nat
  id : List Nat
deriving DecidableEq

/-- `DirectoryPath::new(prefix, directory, id)`. -/
def DirectoryPath.new (pfx directory idPath : List Nat) : DirectoryPath :=
  { root := pfx ++ 47 :: (directory ++ 47 :: idPath),
    temp_path := pfx ++ 47 :: (str "tmp" ++ 47 :: idPath),
    lock_path := setExtension (pfx ++ 47 :: (str "var" ++ 47 :: idPath)) (str "lock"),
    id := idPath }

/-- `ReadPath`: a committed entry to read (the guard is `None` on both
`lock_writing` read branches; the write lock, when taken, is released). -/
structure ReadPath where
  path : List Nat
  id : List Nat
  guard : Option (List Nat)
deriving DecidableEq

/-- `WritePath`: writes go to `temp_path`; `final_path` is the rename target;
the exclusive lock on `lock_path` is held throughout. -/
structure WritePath where
  final_path : List Nat
  temp_path : List Nat
  id : List Nat
  guard : List Nat
deriving DecidableEq

/-- `LockedPath`: what `lock_writing` resolves to. -/
inductive LockedPath where
  | writeNew (w : WritePath)
  | readExisting (r : ReadPath)
deriving DecidableEq

/-- `DirectoryPath::lock_writing`: return `ReadExisting` if the final path
already exists; otherwise take the exclusive lock (the filesystem may change
while blocked, hence the second snapshot), re-check, and only hand out a
`WriteNew` handle when the final path still does not exist. -/
def lockWriting (dp : DirectoryPath) (fsFirst fsLocked : FS) : LockedPath :=
  if fsFirst dp.root then
    LockedPath.readExisting ⟨dp.root, dp.id, none⟩
  else if fsLocked dp.root then
    LockedPath.readExisting ⟨dp.root, dp.id, none⟩
  else
    LockedPath.writeNew ⟨dp.root, dp.temp_path, dp.id, dp.lock_path⟩

/-- `fs::rename(src, dst)` on the existence view. -/
def renameFS (fs : FS) (src dst : List Nat) : FS :=
  fun p => if p == dst then fs src else if p == src then false else fs p

/-- `WritePath::normalize_and_rename`: if the temp path exists, rename it
onto the final path (the atomic commit point). -/
def normalizeAndRename (w : WritePath) (fs : FS) : FS :=
  if fs w.temp_path then renameFS fs w.temp_path w.final_path else fs

/-- C2: if the final path `P/C/i` exists at either observation point, the
write protocol returns a `ReadExisting` handle on the committed entry;
`WriteNew` is returned exactly when `P/C/i` is absent both before and after
acquiring the exclusive lock, and that handle writes to `P/tmp/i` and renames
onto `P/C/i`; hence an already-visible store path is never the target of a
fresh write handle. -/
theorem lockWriting_never_overwrites (pfx directory idPath : List Nat)
    (fsFirst fsLocked : FS) :
    (fsFirst (DirectoryPath.new pfx directory idPath).root = true →
      lockWriting (DirectoryPath.new pfx directory idPath) fsFirst fsLocked =
        LockedPath.readExisting
          ⟨(DirectoryPath.new pfx directory idPath).root, idPath, none⟩) ∧
    (fsFirst (DirectoryPath.new pfx directory idPath).root = false →
      fsLocked (DirectoryPath.new pfx directory idPath).root = true →
      lockWriting (DirectoryPath.new pfx directory idPath) fsFirst fsLocked =
        LockedPath.readExisting
          ⟨(DirectoryPath.new pfx directory idPath).root, idPath, none⟩) ∧
    (∀ w : WritePath,
      lockWriting (DirectoryPath.new pfx directory idPath) fsFirst fsLocked =
          LockedPath.writeNew w →
        fsFirst (DirectoryPath.new pfx directory idPath).root = false ∧
        fsLocked (DirectoryPath.new pfx directory idPath).root = false ∧
        w.temp_path = pfx ++ 47 :: (str "tmp" ++ 47 :: idPath) ∧
        w.final_path = pfx ++ 47 :: (directory ++ 47 :: idPath) ∧
        ∀ fs : FS, fs w.temp_path = true →
          normalizeAndRename w fs w.final_path = true) := by
  have hchar : ∀ (dp : DirectoryPath) (fs1 fs2 : FS),
      lockWriting dp fs1 fs2 =
        if fs1 dp.root || fs2 dp.root then
          LockedPath.readExisting ⟨dp.root, dp.id, none⟩
        else
          LockedPath.writeNew ⟨dp.root, dp.temp_path, dp.id, dp.lock_path⟩ := by
    intro dp fs1 fs2
    unfold lockWriting
    cases fs1 dp.root <;> cases fs2 dp.root <;> simp
  refine ⟨?_, ?_, ?_⟩
  · intro h
    rw [hchar, h]
    rfl
  · intro h1 h2
    rw [hchar, h1, h2]
    rfl
  · intro w hw
    rw [hchar] at hw
    rcases hf1 : fsFirst (DirectoryPath.new pfx directory idPath).root with _ | _ <;>
      rcases hf2 : fsLocked (DirectoryPath.new pfx directory idPath).root with _ | _ <;>
      rw [hf1, hf2] at hw <;> simp only [Bool.or_self, Bool.false_or, Bool.or_false,
        Bool.or_true, if_true, if_false, Bool.false_eq_true, reduceIte] at hw
    · have hw' := (LockedPath.writeNew.inj hw).symm
      subst hw'
      refine ⟨rfl, rfl, rfl, rfl, ?_⟩
      intro fs hfs
      simp only [normalizeAndRename, hfs, if_true, renameFS, beq_self_eq_true]
    all_goals exact absurd hw (by simp)

/-- Witness for C2: with the entry already present at the first check, the
protocol yields the read handle at a concrete store layout. -/
theorem lockWriting_never_overwrites_witness :
    lockWriting (DirectoryPath.new (str "/deck/store") (str "manifests")
        (str "foo@1.0.0-dzmdafuk7vhjrfffs2k43wtofvgtvdsh.toml"))
        (fun _ => true) (fun _ => false) =
      LockedPath.readExisting
        ⟨(DirectoryPath.new (str "/deck/store") (str "manifests")
            (str "foo@1.0.0-dzmdafuk7vhjrfffs2k43wtofvgtvdsh.toml")).root,
          str "foo@1.0.0-dzmdafuk7vhjrfffs2k43wtofvgtvdsh.toml", none⟩ :=
  (lockWriting_never_overwrites (str "/deck/store") (str "manifests")
    (str "foo@1.0.0-dzmdafuk7vhjrfffs2k43wtofvgtvdsh.toml")
    (fun _ => true) (fun _ => false)).1 rfl

/-! ## StoreId (`deck-store/src/id/store.rs`)

`StoreId::from_url` splits the input once on `'+'` (43), parses the remainder
with the external `url` crate, and dispatches on the prefix.  The `Url` type
is modelled as a record; `urlParse` models the crate's parser restricted to
the `scheme://[userinfo@]host[:port][/path][?query][#fragment]` shapes used
by store ids (the percent-codec is omitted; all inputs here are ASCII-safe).
`'#'` is 35, `'&'` is 38, `'/'` is 47, `':'` is 58, `'='` is 61, `'?'` is 63,
`'@'` is 64. -/

structure Url where
  scheme : List Nat
  host : Option (List Nat)
  path : List Nat
  query : List (List Nat × List Nat)
  fragment : Option (List Nat)
deriving DecidableEq

/-- Split a string on every occurrence of `sep` (Rust's `split`). -/
def splitAll (sep : Nat) : List Nat → List (List Nat)
  | [] => [[]]
  | c :: cs =>
    if c = sep then [] :: splitAll sep cs
    else
      match splitAll sep cs with
      | [] => [[c]]
      | t :: ts => (c :: t) :: ts

/-- Query text to key-value pairs: split on `'&'`, each piece once on `'='`
(missing `'='` yields an empty value). -/
def parseQueryPairs (q : List Nat) : List (List Nat × List Nat) :=
  (splitAll 38 q).map fun kv =>
    let (k, v) := split2 61 kv
    (k, v.getD [])

/-- Model of `url::Url::parse` on `scheme://…` inputs. -/
def urlParse (s : List Nat) : Option Url :=
  match split2 58 s with
  | (scheme, some (47 :: 47 :: rest)) =>
    let (beforeFrag, frag) := split2 35 rest
    let (beforeQuery, queryText) := split2 63 beforeFrag
    let (authority, pathRest) := split2 47 beforeQuery
    let path : List Nat :=
      match pathRest with
      | some r => 47 :: r
      | none => []
    let hostport : List Nat :=
      match split2 64 authority with
      | (_, some hp) => hp
      | (hp, none) => hp
    let host : List Nat := (split2 58 hostport).1
    some
      { scheme := scheme,
        host := if host = [] then none else some host,
        path := path,
        query := match queryText with
          | some q => parseQueryPairs q
          | none => [],
        fragment := frag }
  | _ => none

/-- `url::Url::from_directory_path`: an absolute path becomes a `file` URL
with a trailing slash and no query or fragment. -/
def fromDirectoryPath (path : List Nat) : Url :=
  { scheme := str "file",
    host := none,
    path := if path.getLast? = some 47 then path else path ++ [47],
    query := [],
    fragment := none }

/-- `DockerContainer`. -/
inductive DockerContainer where
  | id (v : List Nat)
  | name (v : List Nat)
deriving DecidableEq

/-- `Kind`. -/
inductive StoreKind where
  | local
  | ssh
  | docker (c : DockerContainer)
deriving DecidableEq

/-- `ParseError` for store ids (the `Url` variant's payload is opaque). -/
inductive StoreParseError where
  | NotStoreId
  | UrlErr
  | UnsupportedPrefix (p : List Nat)
  | UnsupportedScheme (s : List Nat)
  | MissingHost
  | MissingContainerInfo
  | MissingRequiredQueryPair (k : List Nat)
  | UnknownFragment (f : List Nat)
  | UnknownQueryPair (k v : List Nat)
deriving DecidableEq

/-- `StoreId`. -/
structure StoreId where
  url : Url
  kind : StoreKind
deriving DecidableEq

namespace StoreId

/-- `StoreId::for_local`: build a directory URL from the path; the fragment
and query checks can never fire because `from_directory_path` produces
neither. -/
def for_local (path : List Nat) : Except StoreParseError StoreId :=
  let url := fromDirectoryPath path
  match url.fragment with
  | some frag => Except.error (StoreParseError.UnknownFragment frag)
  | none =>
    match url.query with
    | (k, v) :: _ => Except.error (StoreParseError.UnknownQueryPair k v)
    | [] => Except.ok ⟨url, StoreKind.local⟩

/-- `StoreId::for_ssh`: require the `ssh` scheme and a host, then STRIP any
fragment and query. -/
def for_ssh (url : Url) : Except StoreParseError StoreId :=
  if url.scheme ≠ str "ssh" then
    Except.error (StoreParseError.UnsupportedScheme url.scheme)
  else if url.host = none then
    Except.error StoreParseError.MissingHost
  else
    Except.ok ⟨{ url with fragment := none, query := [] }, StoreKind.ssh⟩

/-- `StoreId::for_docker`: require a `unix`/`https`/`ssh` scheme and a host;
require a `user` query pair; then inspect only the FIRST non-`user` query
pair: `container_id`/`container_name` are accepted (later pairs are
discarded) and anything else is an `UnknownQueryPair` error.  The rebuilt URL
keeps just the `user` and container pairs and drops the fragment. -/
def for_docker (url : Url) : Except StoreParseError StoreId :=
  if ¬(url.scheme = str "unix" ∨ url.scheme = str "https" ∨ url.scheme = str "ssh") then
    Except.error (StoreParseError.UnsupportedScheme url.scheme)
  else if url.host = none then
    Except.error StoreParseError.MissingHost
  else
    match url.query.find? (fun kv => kv.1 == str "user") with
    | none => Except.error (StoreParseError.MissingRequiredQueryPair (str "user"))
    | some (_, user) =>
      match url.query.filter (fun kv => kv.1 ≠ str "user") with
      | [] => Except.error StoreParseError.MissingContainerInfo
      | (k, v) :: _ =>
        if k = str "container_id" then
          Except.ok
            ⟨{ url with
                fragment := none,
                query := [(str "user", user), (str "container_id", v)] },
              StoreKind.docker (DockerContainer.id v)⟩
        else if k = str "container_name" then
          Except.ok
            ⟨{ url with
                fragment := none,
                query := [(str "user", user), (str "container_name", v)] },
              StoreKind.docker (DockerContainer.name v)⟩
        else Except.error (StoreParseError.UnknownQueryPair k v)

/-- The prefix dispatch of `StoreId::from_url` after URL parsing. -/
def dispatch (pfx : List Nat) (url : Url) : Except StoreParseError StoreId :=
  if pfx = str "local" then
    if url.scheme = str "file" then for_local url.path
    else Except.error (StoreParseError.UnsupportedScheme url.scheme)
  else if pfx = str "ssh" then for_ssh url
  else if pfx = str "docker" then for_docker url
  else Except.error (StoreParseError.UnsupportedPrefix pfx)

/-- `StoreId::from_url`: split once on `'+'`, parse the URL, dispatch. -/
def from_url (s : List Nat) : Except StoreParseError StoreId :=
  match split2 43 s with
  | (_, none) => Except.error StoreParseError.NotStoreId
  | (pfx, some rest) =>
    match urlParse rest with
    | none => Except.error StoreParseError.UrlErr
    | some url => dispatch pfx url

end StoreId

/-- C5 counterexample: the claim says a `local+file` URL carrying any query
fails to parse, but `from_url` takes only the PATH of the parsed URL and
rebuilds a clean directory URL, so `local+file:///deck/store?foo=bar`
parses successfully (to the same id as without the query) — exactly what the
source's own `parses_local_urls` test asserts. -/
theorem storeId_claim_counterexample :
    StoreId.from_url (str "local+file:///deck/store?foo=bar") =
      Except.ok ⟨fromDirectoryPath (str "/deck/store"), StoreKind.local⟩ ∧
    StoreId.from_url (str "local+file:///deck/store") =
      Except.ok ⟨fromDirectoryPath (str "/deck/store"), StoreKind.local⟩ :=
  ⟨rfl, rfl⟩

/-- C5 (amended): `StoreId::from_url` rejects an unrecognized prefix with
`UnsupportedPrefix` and an unrecognized scheme for a recognized prefix with
`UnsupportedScheme`; but `local+file` URLs IGNORE any query and fragment
(only the path survives into the rebuilt directory URL), `ssh`/`docker` URLs
strip fragments rather than reject them, and a `docker` URL fails with
`UnknownQueryPair` exactly when the first query pair whose key is not `user`
has a key other than `container_id`/`container_name` — later unknown keys are
silently discarded. -/
theorem storeId_from_url_errors :
    (∀ (pfx : List Nat) (url : Url),
      pfx ≠ str "local" → pfx ≠ str "ssh" → pfx ≠ str "docker" →
      StoreId.dispatch pfx url = Except.error (StoreParseError.UnsupportedPrefix pfx)) ∧
    (∀ url : Url, url.scheme ≠ str "file" →
      StoreId.dispatch (str "local") url =
        Except.error (StoreParseError.UnsupportedScheme url.scheme)) ∧
    (∀ url : Url, url.scheme = str "file" →
      StoreId.dispatch (str "local") url =
        Except.ok ⟨fromDirectoryPath url.path, StoreKind.local⟩) ∧
    (∀ url : Url, url.scheme ≠ str "ssh" →
      StoreId.dispatch (str "ssh") url =
        Except.error (StoreParseError.UnsupportedScheme url.scheme)) ∧
    (∀ url : Url, url.scheme = str "ssh" → url.host ≠ none →
      StoreId.dispatch (str "ssh") url =
        Except.ok ⟨{ url with fragment := none, query := [] }, StoreKind.ssh⟩) ∧
    (∀ url : Url,
      ¬(url.scheme = str "unix" ∨ url.scheme = str "https" ∨ url.scheme = str "ssh") →
      StoreId.dispatch (str "docker") url =
        Except.error (StoreParseError.UnsupportedScheme url.scheme)) ∧
    (∀ (url : Url) (u k v : List Nat) (restq : List (List Nat × List Nat)),
      (url.scheme = str "unix" ∨ url.scheme = str "https" ∨ url.scheme = str "ssh") →
      url.host ≠ none →
      url.query.find? (fun kv => kv.1 == str "user") = some (str "user", u) →
      url.query.filter (fun kv => kv.1 ≠ str "user") = (k, v) :: restq →
      k ≠ str "container_id" → k ≠ str "container_name" →
      StoreId.dispatch (str "docker") url =
        Except.error (StoreParseError.UnknownQueryPair k v)) := by
  refine ⟨?_, ?_, ?_, ?_, ?_, ?_, ?_⟩
  · intro pfx url h1 h2 h3
    simp [StoreId.dispatch, h1, h2, h3]
  · intro url h
    simp [StoreId.dispatch, h]
  · intro url h
    simp [StoreId.dispatch, h, StoreId.for_local, fromDirectoryPath]
  · intro url h
    have hne : str "ssh" ≠ str "local" := by decide
    simp [StoreId.dispatch, hne, StoreId.for_ssh, h]
  · intro url hs hh
    have hne : str "ssh" ≠ str "local" := by decide
    simp [StoreId.dispatch, hne, StoreId.for_ssh, hs, hh]
  · intro url h
    have hne1 : str "docker" ≠ str "local" := by decide
    have hne2 : str "docker" ≠ str "ssh" := by decide
    simp only [StoreId.dispatch, hne1, hne2, if_false, if_pos rfl, StoreId.for_docker,
      if_neg h, reduceIte]
    simp [h]
  · intro url u k v restq hscheme hhost hfind hfilter hk1 hk2
    have hne1 : str "docker" ≠ str "local" := by decide
    have hne2 : str "docker" ≠ str "ssh" := by decide
    simp only [StoreId.dispatch, hne1, hne2, if_false, reduceIte]
    simp only [StoreId.for_docker, hscheme, not_true_eq_false, if_false, hhost,
      reduceIte, hfind, hfilter, hk1, hk2]

/-- Witness for C5 (amended): concrete evaluations of the dispatch branches:
an unknown prefix, a bad local scheme, a local URL with query and fragment
ignored, and a docker URL whose first non-user pair is unknown. -/
theorem storeId_from_url_errors_witness :
    StoreId.dispatch (str "s3")
        ⟨str "https", some (str "h"), [], [], none⟩ =
      Except.error (StoreParseError.UnsupportedPrefix (str "s3")) ∧
    StoreId.dispatch (str "local")
        ⟨str "http", none, str "/deck/store", [], none⟩ =
      Except.error (StoreParseError.UnsupportedScheme (str "http")) ∧
    StoreId.dispatch (str "local")
        ⟨str "file", none, str "/deck/store", [(str "foo", str "bar")], some (str "f")⟩ =
      Except.ok ⟨fromDirectoryPath (str "/deck/store"), StoreKind.local⟩ ∧
    StoreId.dispatch (str "docker")
        ⟨str "https", some (str "host"),
          [], [(str "user", str "u"), (str "bar", str "hello")], none⟩ =
      Except.error (StoreParseError.UnknownQueryPair (str "bar") (str "hello")) :=
  ⟨storeId_from_url_errors.1 (str "s3") ⟨str "https", some (str "h"), [], [], none⟩
      (by decide) (by decide) (by decide),
    storeId_from_url_errors.2.1 ⟨str "http", none, str "/deck/store", [], none⟩ (by decide),
    storeId_from_url_errors.2.2.1
      ⟨str "file", none, str "/deck/store", [(str "foo", str "bar")], some (str "f")⟩ rfl,
    storeId_from_url_errors.2.2.2.2.2.2
      ⟨str "https", some (str "host"), [], [(str "user", str "u"), (str "bar", str "hello")], none⟩
      (str "u") (str "bar") (str "hello") []
      (by decide) (by decide) (by decide) (by decide) (by decide) (by decide)⟩

/-! ## BLAKE2b (the `blake2` crate's `VarBlake2b`, used by `Hash::compute`)

A faithful implementation of sequential BLAKE2b with a variable digest
length, over `Nat` words reduced mod `2^64`. -/

/-- 2^64. -/
def W64 : Nat := 18446744073709551616

/-- Word addition mod 2^64. -/
def wadd (a b : Nat) : Nat := (a + b) % W64

/-- Word xor (stays below 2^64 when both arguments are). -/
def wxor (a b : Nat) : Nat := Nat.xor a b

/-- Rotate a 64-bit word right by `r`. -/
def rotr (x r : Nat) : Nat :=
  ((x >>> r) ||| (x <<< (64 - r))) % W64

/-- List read with default 0. -/
def lget (l : List Nat) (i : Nat) : Nat := l.getD i 0

/-- The BLAKE2b initialization vector. -/
def blakeIV : List Nat :=
  [0x6a09e667f3bcc908, 0xbb67ae8584caa73b, 0x3c6ef372fe94f82b, 0xa54ff53a5f1d36f1,
   0x510e527fade682d1, 0x9b05688c2b3e6c1f, 0x1f83d9abfb41bd6b, 0x5be0cd19137e2179]

/-- The BLAKE2 message schedule, one permutation per round (rounds 10 and 11
reuse the first two). -/
def blakeSigma : List (List Nat) :=
  [[0, 1, 2, 3, 4, 5, 6, 7, 8, 9, 10, 11, 12, 13, 14, 15],
   [14, 10, 4, 8, 9, 15, 13, 6, 1, 12, 0, 2, 11, 7, 5, 3],
   [11, 8, 12, 0, 5, 2, 15, 13, 10, 14, 3, 6, 7, 1, 9, 4],
   [7, 9, 3, 1, 13, 12, 11, 14, 2, 6, 5, 10, 4, 0, 15, 8],
   [9, 0, 5, 7, 2, 4, 10, 15, 14, 1, 11, 12, 6, 8, 3, 13],
   [2, 12, 6, 10, 0, 11, 8, 3, 4, 13, 7, 5, 15, 14, 1, 9],
   [12, 5, 1, 15, 14, 13, 4, 10, 0, 7, 6, 3, 9, 2, 8, 11],
   [13, 11, 7, 14, 12, 1, 3, 9, 5, 0, 15, 4, 8, 6, 2, 10],
   [6, 15, 14, 9, 11, 3, 0, 8, 12, 2, 13, 7, 1, 4, 10, 5],
   [10, 2, 8, 4, 7, 6, 1, 5, 15, 11, 9, 14, 3, 12, 13, 0],
   [0, 1, 2, 3, 4, 5, 6, 7, 8, 9, 10, 11, 12, 13, 14, 15],
   [14, 10, 4, 8, 9, 15, 13, 6, 1, 12, 0, 2, 11, 7, 5, 3]]

/-- The BLAKE2b mixing function G on the 16-word working vector. -/
def blakeG (v : List Nat) (a b c d x y : Nat) : List Nat :=
  let va := wadd (wadd (lget v a) (lget v b)) x
  let vd := rotr (wxor (lget v d) va) 32
  let vc := wadd (lget v c) vd
  let vb := rotr (wxor (lget v b) vc) 24
  let va2 := wadd (wadd va vb) y
  let vd2 := rotr (wxor vd va2) 16
  let vc2 := wadd vc vd2
  let vb2 := rotr (wxor vb vc2) 63
  ((((v.set a va2).set b vb2).set c vc2).set d vd2)

/-- One BLAKE2b round: mix columns, then diagonals, with the round's message
schedule `s`. -/
def blakeRound (m s v : List Nat) : List Nat :=
  let mi := fun i => lget m (lget s i)
  let v1 := blakeG v 0 4 8 12 (mi 0) (mi 1)
  let v2 := blakeG v1 1 5 9 13 (mi 2) (mi 3)
  let v3 := blakeG v2 2 6 10 14 (mi 4) (mi 5)
  let v4 := blakeG v3 3 7 11 15 (mi 6) (mi 7)
  let v5 := blakeG v4 0 5 10 15 (mi 8) (mi 9)
  let v6 := blakeG v5 1 6 11 12 (mi 10) (mi 11)
  let v7 := blakeG v6 2 7 8 13 (mi 12) (mi 13)
  blakeG v7 3 4 9 14 (mi 14) (mi 15)

/-- The BLAKE2b compression function: `h` is the 8-word chain value, `m` the
16-word message block, `t` the byte offset counter, `last` the final-block
flag. -/
def blakeCompress (h m : List Nat) (t : Nat) (last : Bool) : List Nat :=
  let v := h ++ blakeIV
  let v := v.set 12 (wxor (lget v 12) (t % W64))
  let v := v.set 13 (wxor (lget v 13) (t / W64))
  let v := if last then v.set 14 (wxor (lget v 14) (W64 - 1)) else v
  let vf := blakeSigma.foldl (fun acc s => blakeRound m s acc) v
  (List.range 8).map fun i => wxor (wxor (lget h i) (lget vf i)) (lget vf (i + 8))

/-- Split a list into 128-element chunks, the last one possibly short (the
fuel argument, instantiated with the list length, makes the recursion
structural so that it reduces inside the kernel). -/
def chunks128F (fuel : Nat) (l : List Nat) : List (List Nat) :=
  match fuel with
  | 0 => [l]
  | fuel + 1 =>
    if l.length ≤ 128 then [l]
    else l.take 128 :: chunks128F fuel (l.drop 128)

/-- The 128-byte message blocks of an input. -/
def chunks128 (l : List Nat) : List (List Nat) :=
  chunks128F l.length l

/-- A (padded) 128-byte block as 16 little-endian 64-bit words. -/
def bytesToWords (block : List Nat) : List Nat :=
  (List.range 16).map fun i => valLE 256 ((block.drop (8 * i)).take 8)

/-- Compress all blocks in sequence; `done` counts the bytes already fed. -/
def blakeCompressSeq (h : List Nat) (blocks : List (List Nat)) (done : Nat) : List Nat :=
  match blocks with
  | [] => h
  | [b] => blakeCompress h (bytesToWords (b ++ List.replicate (128 - b.length) 0))
      (done + b.length) true
  | b :: rest => blakeCompressSeq (blakeCompress h (bytesToWords b) (done + 128) false)
      rest (done + 128)

/-- Unkeyed sequential BLAKE2b with digest length `dlen` bytes: parameter
block `0x0101⟨00⟩⟨dlen⟩` xored into `IV0`, then one compression per 128-byte
block, the final one padded and flagged. -/
def blake2bBytes (dlen : Nat) (input : List Nat) : List Nat :=
  let h0 := blakeIV.set 0 (wxor (lget blakeIV 0) (0x01010000 + dlen))
  let hf := blakeCompressSeq h0 (chunks128 input) 0
  ((hf.map (digitsLE 256 8)).flatten).take dlen

theorem blakeCompress_length (h m : List Nat) (t : Nat) (last : Bool) :
    (blakeCompress h m t last).length = 8 := by
  simp [blakeCompress]

theorem blakeCompressSeq_length (blocks : List (List Nat)) (h : List Nat)
    (done : Nat) (hh : h.length = 8) :
    (blakeCompressSeq h blocks done).length = 8 := by
  induction blocks generalizing h done with
  | nil => simpa [blakeCompressSeq] using hh
  | cons b rest ih =>
    cases rest with
    | nil => simp [blakeCompressSeq, blakeCompress_length]
    | cons b2 rest2 => exact ih _ _ (blakeCompress_length _ _ _ _)

theorem blake2bBytes_spec (dlen : Nat) (input : List Nat) (hd : dlen ≤ 64) :
    (blake2bBytes dlen input).length = dlen ∧
      ∀ b ∈ blake2bBytes dlen input, b < 256 := by
  unfold blake2bBytes
  have hlen : (blakeCompressSeq (blakeIV.set 0 (wxor (lget blakeIV 0) (0x01010000 + dlen)))
      (chunks128 input) 0).length = 8 :=
    blakeCompressSeq_length _ _ _ (by simp [blakeIV])
  set hf := blakeCompressSeq (blakeIV.set 0 (wxor (lget blakeIV 0) (0x01010000 + dlen)))
      (chunks128 input) 0 with hhf
  have hjoin : ((hf.map (digitsLE 256 8)).flatten).length = 64 := by
    rw [List.length_flatten]
    rw [List.map_map]
    have : (hf.map fun w => (digitsLE 256 8 w).length) = hf.map fun _ => 8 := by
      apply List.map_congr_left
      intro w _
      exact digitsLE_length 256 8 w
    simp only [Function.comp_def, this, List.map_const]
    simp [hlen]
  constructor
  · rw [List.length_take, hjoin]
    omega
  · intro b hb
    have hb2 := List.mem_of_mem_take hb
    rw [List.mem_flatten] at hb2
    obtain ⟨l, hl, hbl⟩ := hb2
    rw [List.mem_map] at hl
    obtain ⟨w, _, rfl⟩ := hl
    exact digitsLE_lt 256 8 w (by omega) b hbl

/-- `Hash::compute().input(bytes).finish()`: 20-byte BLAKE2b digest. -/
def hashCompute (input : List Nat) : Hash :=
  ⟨blake2bBytes HASH_LENGTH input,
    (blake2bBytes_spec HASH_LENGTH input (by decide)).1,
    (blake2bBytes_spec HASH_LENGTH input (by decide)).2⟩

/-! ## Manifest serialization and `compute_id`

`impl Display for Manifest` delegates to the external `toml` crate's
serializer; `tomlOfManifest` models its output on the manifest schema
(`kebab-case` keys, `env`/`sources` omitted when empty, `inputs` omitted when
empty, the default output's `name` rendered as the empty string, one blank
line before each table header after the first).  String escaping is omitted:
no serialized field here contains characters needing escapes.  `'"'` is 34,
`'\n'` is 10. -/

/-- A TOML basic string literal. -/
def quoteStr (s : List Nat) : List Nat := 34 :: (s ++ [34])

/-- Join with a separator. -/
def joinSep (sep : List Nat) : List (List Nat) → List Nat
  | [] => []
  | [x] => x
  | x :: xs => x ++ sep ++ joinSep sep xs

/-- A TOML array of string literals, `["…", "…"]`. -/
def tomlArr (xs : List (List Nat)) : List Nat :=
  91 :: (joinSep (str ", ") (xs.map quoteStr) ++ [93])

/-- The serialized `name` of an output slot (empty for the default). -/
def slotText : OutputName → List Nat
  | OutputName.dflt => []
  | OutputName.named n => n

/-- One `[[output]]` table. -/
def entryToml (e : OutputsEntry) : List Nat :=
  str "\n[[output]]\nname = " ++ quoteStr (slotText e.output_name) ++ [10] ++
    str "precomputed-hash = " ++ quoteStr (Hash.toText e.precomputed_hash) ++ [10] ++
    (if e.inputs = [] then [] else
      str "inputs = " ++ tomlArr (e.inputs.map OutputId.toText) ++ [10])

/-- One `[[source]]` table (only the `Uri` variant is serializable). -/
def sourceToml : Source → List Nat
  | Source.uri u h =>
    str "\n[[source]]\nuri = " ++ quoteStr u ++ [10] ++ str "hash = " ++ quoteStr h ++ [10]
  | Source.git => str "\n[[source]]\n"

/-- `toml::to_string` on a `Manifest`. -/
def tomlOfManifest (m : Manifest) : List Nat :=
  str "[package]\nname = " ++ quoteStr m.package.name ++ [10] ++
    str "version = " ++ quoteStr m.package.version ++ [10] ++
    str "dependencies = " ++ tomlArr (m.package.dependencies.map ManifestId.toText) ++ [10] ++
    str "build-dependencies = " ++
      tomlArr (m.package.build_dependencies.map ManifestId.toText) ++ [10] ++
    str "dev-dependencies = " ++
      tomlArr (m.package.dev_dependencies.map ManifestId.toText) ++ [10] ++
    (if m.env = [] then [] else
      str "\n[env]\n" ++
        (m.env.map fun kv => kv.1 ++ str " = " ++ quoteStr kv.2 ++ [10]).flatten) ++
    (m.outputs.map entryToml).flatten ++
    (m.sources.map sourceToml).flatten

/-- `Manifest::compute_id`: hash the serialized TOML form of the manifest and
pair it with the package name and version. -/
def Manifest.compute_id (m : Manifest) : ManifestId :=
  ⟨m.package.name, m.package.version, hashCompute (tomlOfManifest m)⟩

/-- The S2 manifest: name `foo`, version `1.0.0`, main output hash
`fc3j3vub6kodu4jtfoakfs5xhumqi62m`, no inputs — as `finish()` builds it. -/
def fooManifest : Manifest :=
  ⟨⟨str "foo", str "1.0.0", [], [], []⟩, [], [⟨OutputName.dflt, fc3Hash, []⟩], []⟩

/-- C6: building the manifest `("foo", "1.0.0",
"fc3j3vub6kodu4jtfoakfs5xhumqi62m", no inputs)` and calling `compute_id()` —
which BLAKE2b-hashes the manifest's serialized TOML form and combines the
digest with the name and version — yields a `ManifestId` whose textual
rendering is exactly `foo@1.0.0-dzmdafuk7vhjrfffs2k43wtofvgtvdsh`. -/
theorem manifest_compute_id_s2 :
    (ManifestBuilder.new (str "foo") (str "1.0.0")
        (str "fc3j3vub6kodu4jtfoakfs5xhumqi62m") []).finish = some fooManifest ∧
    ManifestId.toText fooManifest.compute_id =
      str "foo@1.0.0-dzmdafuk7vhjrfffs2k43wtofvgtvdsh" :=
  ⟨by decide, by decide⟩

/-! ## Closure validation (`deck-store/src/closure.rs`)

`Closure::new` keys the given manifests by `compute_id` into a `BTreeMap`
(modelled as an association list) and runs `validate_closure`.  The manifest
type used there is `deck_core::Manifest`, whose source file is not under
`src/`; its `dependencies()` and `outputs()` accessors are modelled from the
spec (§3: iterating a manifest's outputs yields an `OutputId` per entry,
synthesized from the package name/version plus the entry's slot and
precomputed hash), which coincides with the in-tree
`deck-store/src/package/manifest.rs`.  Recursion in `validate_closure` is
not structurally bounded (Rust recurses freely), so the model takes fuel and
returns `none` when it runs out. -/

instance exceptDecEq {ε α : Type} [DecidableEq ε] [DecidableEq α] :
    DecidableEq (Except ε α) := fun a b =>
  match a, b with
  | Except.error x, Except.error y =>
    if h : x = y then isTrue (by rw [h]) else isFalse (by intro hc; injection hc; exact h ‹_›)
  | Except.ok x, Except.ok y =>
    if h : x = y then isTrue (by rw [h]) else isFalse (by intro hc; injection hc; exact h ‹_›)
  | Except.error _, Except.ok _ => isFalse (by intro hc; injection hc)
  | Except.ok _, Except.error _ => isFalse (by intro hc; injection hc)

/-- `ClosureError`. -/
inductive ClosureError where
  | CycleDetected (pkg : ManifestId)
  | InvalidInput (package : ManifestId) (input : OutputId)
  | MissingDependency (package dependency : ManifestId)
  | MissingTarget (pkg : ManifestId)
deriving DecidableEq

/-- `BTreeMap::get` on the association list. -/
def lookupPkg (packages : List (ManifestId × Manifest)) (id : ManifestId) :
    Option Manifest :=
  (packages.find? fun kv => kv.1 == id).map fun kv => kv.2

/-- The output loop of `validate_closure`: every `OutputId` yielded by
`manifest.outputs()` must be the same package (name and version) as some
declared runtime dependency, else `InvalidInput`. -/
def outputsCheck (target : ManifestId) (deps : List ManifestId) :
    List OutputId → Except ClosureError Unit
  | [] => Except.ok ()
  | out :: rest =>
    if deps.any fun dep => dep.is_same_package out.name out.version then
      outputsCheck target deps rest
    else Except.error (ClosureError.InvalidInput target out)

/-- `validate_closure`.  Every branch of the source's `for dep in
manifest.dependencies()` loop body returns, so the loop only ever inspects
the FIRST dependency: a nonempty dependency list recurses into (or fails on)
its head and the remaining dependencies — and the outputs check — are never
reached; the outputs check runs only for dependency-free manifests. -/
def validateClosure (fuel : Nat) (target : ManifestId)
    (packages : List (ManifestId × Manifest)) : Option (Except ClosureError Unit) :=
  match fuel with
  | 0 => none
  | fuel + 1 =>
    match lookupPkg packages target with
    | none => some (Except.error (ClosureError.MissingTarget target))
    | some manifest =>
      match manifest.dependencies with
      | dep :: _ =>
        if dep = target then
          some (Except.error (ClosureError.CycleDetected target))
        else if (lookupPkg packages dep).isSome then
          validateClosure fuel dep packages
        else
          some (Except.error (ClosureError.MissingDependency target dep))
      | [] => some (outputsCheck target manifest.dependencies manifest.outputIds)

/-- `Closure`. -/
structure Closure where
  target : ManifestId
  packages : List (ManifestId × Manifest)
deriving DecidableEq

/-- `Closure::new`: key the manifests by `compute_id`, validate, and wrap. -/
def Closure.new (fuel : Nat) (target : ManifestId) (packages : List Manifest) :
    Option (Except ClosureError Closure) :=
  let with_ids := packages.map fun m => (m.compute_id, m)
  match validateClosure fuel target with_ids with
  | none => none
  | some (Except.error e) => some (Except.error e)
  | some (Except.ok ()) => some (Except.ok ⟨target, with_ids⟩)

/-- Any reachable dependency-free manifest makes `validate_closure` fail with
`InvalidInput` on its first output, because the outputs check compares the
manifest's own outputs (same name/version as the manifest itself) against its
(empty) dependency list — so validation can never succeed on a closure whose
leaves have outputs, contradicting `validate_closure`'s own doc comment. -/
theorem validateClosure_leaf_errors (fuel : Nat) (target : ManifestId)
    (packages : List (ManifestId × Manifest)) (m : Manifest) (out : OutputId)
    (outs : List OutputId) (hfind : lookupPkg packages target = some m)
    (hdeps : m.dependencies = []) (houts : m.outputIds = out :: outs) :
    validateClosure (fuel + 1) target packages =
      some (Except.error (ClosureError.InvalidInput target out)) := by
  unfold validateClosure
  rw [hfind]
  simp only [hdeps, houts, outputsCheck, List.any_nil, Bool.false_eq_true, if_false]

/-- The `ManifestId` of `fooManifest` (`foo@1.0.0-dzmdafuk7vhjrfffs2k43wtofvgtvdsh`). -/
def fooId : ManifestId :=
  ⟨str "foo", str "1.0.0",
    ⟨[30, 88, 48, 22, 138, 253, 78, 152, 148, 165, 150, 149, 205, 218, 110, 45,
      77, 58, 142, 71], by decide⟩⟩

/-- C1: the failing input evaluated on the code.  The closure
`Closure::new(foo@1.0.0-dzmd…, {fooManifest})` satisfies every validity
condition of the claim — the target is present, no manifest depends on
itself, no dependency is missing, and no output REFERENCE exists at all (the
sole output's references set is empty) — yet `Closure::new` returns
`InvalidInput` on the manifest's own default output: the code checks the
manifest's own `outputs()` against its (empty) dependency list instead of
checking the outputs' references, and its dependency loop returns on the
first iteration, skipping both the remaining dependencies and (for manifests
with dependencies) the whole outputs check. -/
theorem closure_new_code_bug :
    Closure.new 1 fooId [fooManifest] =
      some (Except.error (ClosureError.InvalidInput fooId
        ⟨str "foo", str "1.0.0", none, fc3Hash⟩)) := by decide

/-! ## Build graph (`deck-store/src/store/builder.rs`)

A `BuildFuture` is either the join of one `FetchSource` job per source of a
package (`Builder::fetch_sources`) or `future::join_all(deps)` followed by a
`BuildManifest` job (`DependenciesBuilt::build_package_impl`).  The staged
pipeline `fetch_sources → build_dependencies → build_package_impl` is
modelled by `buildRec`, which processes a worklist of manifest ids: for the
head id it creates the sources node, recursively builds all dependencies
(`SourcesFetched::build_dependencies` iterates `dependent_closures()`), then
either reuses the memoized node for the id or inserts the join node into the
graph (`build_package_impl`), and continues with the rest of the worklist.
Rust's recursion is unbounded, so `buildRec` is structural on a fuel counter
(every recursive call, including the worklist tail, consumes fuel so that the
definition reduces inside the kernel); `none` models non-termination or the
`&self.packages[..]` panic on a missing manifest. -/

/-- A node of the build graph. -/
inductive BuildFut where
  | sources (target : ManifestId) (srcs : List Source)
  | build (deps : List BuildFut) (target : ManifestId)

/-- Observable job events: a `FetchSource` job finishing, a `BuildManifest`
job starting and finishing. -/
inductive BuildEvent where
  | fetchEnd (target : ManifestId) (src : Source)
  | buildStart (target : ManifestId)
  | buildEnd (target : ManifestId)

/-- When a build node resolves, given a schedule `σ` assigning times to
events: a sources join resolves once every fetch job is done; a package node
resolves when its `BuildManifest` job finishes (`and_then`). -/
def doneAt (σ : BuildEvent → Nat) : BuildFut → Nat
  | BuildFut.sources t srcs => (srcs.map fun s => σ (BuildEvent.fetchEnd t s)).foldr max 0
  | BuildFut.build _ t => σ (BuildEvent.buildEnd t)

/-- A schedule is valid for a node when, recursively, every join member
resolves strictly before the node's `BuildManifest` job starts
(`future::join_all(deps).and_then(BuildManifest…)`), and jobs finish after
they start. -/
inductive Valid (σ : BuildEvent → Nat) : BuildFut → Prop where
  | sources (t : ManifestId) (srcs : List Source) : Valid σ (BuildFut.sources t srcs)
  | build (deps : List BuildFut) (t : ManifestId)
      (hdeps : ∀ d ∈ deps, Valid σ d)
      (hdone : ∀ d ∈ deps, doneAt σ d < σ (BuildEvent.buildStart t))
      (hrun : σ (BuildEvent.buildStart t) < σ (BuildEvent.buildEnd t)) :
      Valid σ (BuildFut.build deps t)

/-- The memoization table `BuildGraph = BTreeMap<ManifestId, BuildFuture>`,
as an association list with unique keys (inserts are guarded by the memo
lookup). -/
abbrev Graph : Type := List (ManifestId × BuildFut)

/-- `BTreeMap::get` on the graph. -/
def lookupGraph (g : Graph) (id : ManifestId) : Option BuildFut :=
  (g.find? fun kv => kv.1 == id).map fun kv => kv.2

/-- The staged builder pipeline over a worklist of targets; returns the
build node of every worklist entry plus the final graph. -/
def buildRec : Nat → List (ManifestId × Manifest) → List ManifestId → Graph →
    Option (List BuildFut × Graph)
  | _, _, [], g => some ([], g)
  | 0, _, _ :: _, _ => none
  | fuel + 1, packages, id :: rest, g =>
    match lookupPkg packages id with
    | none => none
    | some manifest =>
      -- Builder::fetch_sources: one FetchSource job per source, joined
      let srcNode := BuildFut.sources id manifest.sources
      -- SourcesFetched::build_dependencies: recurse over dependent_closures()
      match buildRec fuel packages manifest.dependencies g with
      | none => none
      | some (depFuts, g1) =>
        -- DependenciesBuilt::build_package_impl: memoize by ManifestId
        let (node, g2) :=
          match lookupGraph g1 id with
          | some n => (n, g1)
          | none =>
            let n := BuildFut.build (srcNode :: depFuts) id
            (n, g1 ++ [(id, n)])
        match buildRec fuel packages rest g2 with
        | none => none
        | some (nodes, g3) => some (node :: nodes, g3)

/-- `DependenciesBuilt::build_package` for a closure's target: run the
pipeline on the singleton worklist over an empty graph. -/
def buildPackage (fuel : Nat) (c : Closure) : Option (BuildFut × Graph) :=
  match buildRec fuel c.packages [c.target] [] with
  | some (node :: _, g) => some (node, g)
  | _ => none

/-- Transitive dependency relation induced by the closure's package map. -/
inductive DepChain (packages : List (ManifestId × Manifest)) :
    ManifestId → ManifestId → Prop where
  | direct {p d : ManifestId} {m : Manifest} :
      lookupPkg packages p = some m → d ∈ m.dependencies → DepChain packages p d
  | trans {p q d : ManifestId} :
      DepChain packages p q → DepChain packages q d → DepChain packages p d

/-- The per-node shape invariant of a constructed graph: every stored node is
the join of the package's sources node and one build node per declared
dependency, each of which is exactly the node the graph stores for that
dependency (the shared, memoized handle). -/
def GraphInv (packages : List (ManifestId × Manifest)) (g : Graph) : Prop :=
  ∀ id node, lookupGraph g id = some node →
    ∃ ds m, node = BuildFut.build ds id ∧
      lookupPkg packages id = some m ∧
      BuildFut.sources id m.sources ∈ ds ∧
      ∀ d ∈ m.dependencies, ∃ ds2, BuildFut.build ds2 d ∈ ds ∧
        lookupGraph g d = some (BuildFut.build ds2 d)

theorem le_foldr_max (l : List Nat) (a : Nat) (h : a ∈ l) : a ≤ l.foldr max 0 := by
  induction l with
  | nil => simp at h
  | cons x xs ih =>
    rcases List.mem_cons.mp h with rfl | h2
    · exact le_max_left _ _
    · exact le_trans (ih h2) (le_max_right _ _)

theorem lookupGraph_append_of_some (g : Graph) (e : ManifestId × BuildFut)
    (id : ManifestId) (n : BuildFut) (h : lookupGraph g id = some n) :
    lookupGraph (g ++ [e]) id = some n := by
  unfold lookupGraph at h ⊢
  rw [List.find?_append]
  rcases hf : g.find? fun kv => kv.1 == id with _ | kv
  · rw [hf] at h; exact absurd h (by simp)
  · rw [hf]
    rw [hf] at h
    exact h

theorem lookupGraph_append_self (g : Graph) (id : ManifestId) (n : BuildFut)
    (h : lookupGraph g id = none) :
    lookupGraph (g ++ [(id, n)]) id = some n := by
  unfold lookupGraph at h ⊢
  rw [List.find?_append]
  rcases hf : g.find? fun kv => kv.1 == id with _ | kv
  · rw [hf]
    show Option.map _ (List.find? (fun kv => kv.1 == id) [(id, n)]) = some n
    rw [List.find?_cons]
    simp
  · rw [hf] at h; exact absurd h (by simp)

theorem lookupGraph_append_cases (g : Graph) (id x : ManifestId) (n nx : BuildFut)
    (h : lookupGraph (g ++ [(id, n)]) x = some nx) :
    lookupGraph g x = some nx ∨ (x = id ∧ nx = n) := by
  unfold lookupGraph at h ⊢
  rw [List.find?_append] at h
  rcases hf : g.find? fun kv => kv.1 == x with _ | kv
  · rw [hf] at h
    replace h : Option.map (fun kv => kv.2)
        (List.find? (fun kv => kv.1 == x) [(id, n)]) = some nx := h
    by_cases hx : ((id, n).1 == x) = true
    · rw [List.find?_cons, hx] at h
      right
      have hid : id = x := by simpa using hx
      refine ⟨hid.symm, ?_⟩
      simpa using h.symm
    · rw [List.find?_cons] at h
      rw [Bool.not_eq_true] at hx
      rw [hx] at h
      exact absurd h (by simp)
  · rw [hf] at h
    replace h : Option.map (fun kv => kv.2) (some kv) = some nx := h
    left
    rw [hf]
    exact h

theorem forall₂_mem_left {α β : Type} {R : α → β → Prop} {l1 : List α} {l2 : List β}
    (h : List.Forall₂ R l1 l2) {a : α} (ha : a ∈ l1) : ∃ b ∈ l2, R a b := by
  induction h with
  | nil => simp at ha
  | cons hr _ ih =>
    rcases List.mem_cons.mp ha with rfl | ha2
    · exact ⟨_, List.mem_cons_self _ _, hr⟩
    · obtain ⟨b, hb, hrb⟩ := ih ha2
      exact ⟨b, List.mem_cons_of_mem _ hb, hrb⟩

/-- Soundness of the staged construction: a successful `buildRec` run
preserves the graph invariant, never disturbs existing entries (memoization:
a node, once inserted for an id, is the node every later consumer receives),
and returns for each worklist id exactly the node the final graph stores for
it. -/
theorem buildRec_sound :
    ∀ (fuel : Nat) (packages : List (ManifestId × Manifest)) (ids : List ManifestId)
      (g : Graph) (nodes : List BuildFut) (g' : Graph),
      buildRec fuel packages ids g = some (nodes, g') →
      GraphInv packages g →
      GraphInv packages g' ∧
      (∀ id n, lookupGraph g id = some n → lookupGraph g' id = some n) ∧
      List.Forall₂ (fun id node => lookupGraph g' id = some node) ids nodes := by
  intro fuel
  induction fuel with
  | zero =>
    intro packages ids g nodes g' h hinv
    cases ids with
    | nil =>
      simp only [buildRec, Option.some.injEq, Prod.mk.injEq] at h
      obtain ⟨rfl, rfl⟩ := h
      exact ⟨hinv, fun _ _ hn => hn, List.Forall₂.nil⟩
    | cons a rest => simp [buildRec] at h
  | succ fuel ih =>
    intro packages ids g nodes g' h hinv
    cases ids with
    | nil =>
      simp only [buildRec, Option.some.injEq, Prod.mk.injEq] at h
      obtain ⟨rfl, rfl⟩ := h
      exact ⟨hinv, fun _ _ hn => hn, List.Forall₂.nil⟩
    | cons id rest =>
      simp only [buildRec] at h
      rcases hm : lookupPkg packages id with _ | manifest
      · simp [hm] at h
      simp only [hm] at h
      rcases hr1 : buildRec fuel packages manifest.dependencies g with _ | p1
      · simp [hr1] at h
      obtain ⟨depFuts, g1⟩ := p1
      simp only [hr1] at h
      obtain ⟨hinv1, hpres1, hfa1⟩ := ih packages manifest.dependencies g depFuts g1 hr1 hinv
      rcases hmemo : lookupGraph g1 id with _ | n0
      · -- memo miss: insert the fresh join node
        simp only [hmemo] at h
        rcases hr2 : buildRec fuel packages rest
            (g1 ++ [(id, BuildFut.build (BuildFut.sources id manifest.sources :: depFuts) id)])
          with _ | p2
        · simp [hr2] at h
        obtain ⟨nodes2, g3⟩ := p2
        simp only [hr2, Option.some.injEq, Prod.mk.injEq] at h
        obtain ⟨rfl, rfl⟩ := h
        have hpres12 : ∀ i x, lookupGraph g1 i = some x →
            lookupGraph (g1 ++ [(id, BuildFut.build
              (BuildFut.sources id manifest.sources :: depFuts) id)]) i = some x :=
          fun i x hx => lookupGraph_append_of_some _ _ _ _ hx
        have hself : lookupGraph (g1 ++ [(id, BuildFut.build
            (BuildFut.sources id manifest.sources :: depFuts) id)]) id =
            some (BuildFut.build (BuildFut.sources id manifest.sources :: depFuts) id) :=
          lookupGraph_append_self _ _ _ hmemo
        have hinv2 : GraphInv packages (g1 ++ [(id, BuildFut.build
            (BuildFut.sources id manifest.sources :: depFuts) id)]) := by
          intro x nx hx
          rcases lookupGraph_append_cases g1 id x _ nx hx with hold | ⟨rfl, rfl⟩
          · obtain ⟨ds, m2, hshape, hm2, hsrc, hdeps⟩ := hinv1 x nx hold
            refine ⟨ds, m2, hshape, hm2, hsrc, ?_⟩
            intro d hd
            obtain ⟨ds2, hmem, hlook⟩ := hdeps d hd
            exact ⟨ds2, hmem, hpres12 _ _ hlook⟩
          · refine ⟨BuildFut.sources x manifest.sources :: depFuts, manifest, rfl, hm,
              List.mem_cons_self _ _, ?_⟩
            intro d hd
            obtain ⟨nd, hnd_mem, hnd_look⟩ := forall₂_mem_left hfa1 hd
            obtain ⟨ds2, m3, hshape3, _, _, _⟩ := hinv1 d nd hnd_look
            subst hshape3
            exact ⟨ds2, List.mem_cons_of_mem _ hnd_mem, hpres12 _ _ hnd_look⟩
        obtain ⟨hinv3, hpres23, hfa2⟩ := ih packages rest _ nodes2 g3 hr2 hinv2
        refine ⟨hinv3, fun i x hx => hpres23 _ _ (hpres12 _ _ (hpres1 _ _ hx)),
          List.Forall₂.cons (hpres23 _ _ hself) hfa2⟩
      · -- memo hit: reuse the stored node unchanged
        simp only [hmemo] at h
        rcases hr2 : buildRec fuel packages rest g1 with _ | p2
        · simp [hr2] at h
        obtain ⟨nodes2, g3⟩ := p2
        simp only [hr2, Option.some.injEq, Prod.mk.injEq] at h
        obtain ⟨rfl, rfl⟩ := h
        obtain ⟨hinv2, hpres2, hfa2⟩ := ih packages rest g1 nodes2 g3 hr2 hinv1
        exact ⟨hinv2, fun i x hx => hpres2 _ _ (hpres1 _ _ hx),
          List.Forall₂.cons (hpres2 _ _ hmemo) hfa2⟩

/-- Along any transitive dependency chain in a graph satisfying the
invariant, validity propagates down and every dependency's `BuildManifest`
finishes strictly before the dependent package's `BuildManifest` starts. -/
theorem depChain_ordering (packages : List (ManifestId × Manifest)) (graph : Graph)
    (σ : BuildEvent → Nat) (hinv : GraphInv packages graph) :
    ∀ p d, DepChain packages p d →
      ∀ nds, lookupGraph graph p = some (BuildFut.build nds p) →
        Valid σ (BuildFut.build nds p) →
        ∃ ds2, lookupGraph graph d = some (BuildFut.build ds2 d) ∧
          Valid σ (BuildFut.build ds2 d) ∧
          σ (BuildEvent.buildEnd d) < σ (BuildEvent.buildStart p) := by
  intro p d hchain
  induction hchain with
  | @direct p d m hm hd =>
    intro nds hlook hvalid
    obtain ⟨ds, m2, hshape, hm2, hsrc, hdeps⟩ := hinv _ _ hlook
    have hdseq : nds = ds := by injection hshape
    subst hdseq
    have hmeq : m2 = m := Option.some.inj (hm2.symm.trans hm)
    subst hmeq
    obtain ⟨ds2, hmem, hlookd⟩ := hdeps d hd
    cases hvalid with
    | build _ _ hdepsv hdone hrun =>
      exact ⟨ds2, hlookd, hdepsv _ hmem, hdone _ hmem⟩
  | @trans p2 q2 d2 hpq hqd ih1 ih2 =>
    intro nds hlook hvalid
    obtain ⟨dsq, hlq, hvq, hltq⟩ := ih1 nds hlook hvalid
    obtain ⟨dsd, hld, hvd, hltd⟩ := ih2 dsq hlq hvq
    have hrunq : σ (BuildEvent.buildStart q2) < σ (BuildEvent.buildEnd q2) := by
      cases hvq with
      | build _ _ _ _ hr => exact hr
    exact ⟨dsd, hld, hvd, lt_trans (lt_trans hltd hrunq) hltq⟩

/-- Ordering facts for one node of an invariant-satisfying graph under a
valid schedule: its `BuildManifest` starts strictly after every one of its
`FetchSource` jobs ends and strictly after every transitive dependency's
`BuildManifest` ends. -/
theorem node_ordering (packages : List (ManifestId × Manifest)) (graph : Graph)
    (σ : BuildEvent → Nat) (hinv : GraphInv packages graph) (q : ManifestId)
    (ds : List BuildFut) (hq : lookupGraph graph q = some (BuildFut.build ds q))
    (hv : Valid σ (BuildFut.build ds q)) :
    ∃ m, lookupPkg packages q = some m ∧
      (∀ s ∈ m.sources, σ (BuildEvent.fetchEnd q s) < σ (BuildEvent.buildStart q)) ∧
      (∀ d, DepChain packages q d →
        σ (BuildEvent.buildEnd d) < σ (BuildEvent.buildStart q)) := by
  obtain ⟨ds2, m, hshape, hm, hsrc, _⟩ := hinv _ _ hq
  have hdseq : ds = ds2 := by injection hshape
  subst hdseq
  refine ⟨m, hm, ?_, ?_⟩
  · intro s hs
    cases hv with
    | build _ _ hdepsv hdone hrun =>
      have hmax := hdone _ hsrc
      simp only [doneAt] at hmax
      have hle : σ (BuildEvent.fetchEnd q s) ≤
          ((m.sources.map fun s => σ (BuildEvent.fetchEnd q s)).foldr max 0) :=
        le_foldr_max _ _ (List.mem_map_of_mem _ hs)
      exact lt_of_le_of_lt hle hmax
  · intro d hchain
    obtain ⟨_, _, _, hlt⟩ := depChain_ordering packages graph σ hinv q d hchain ds hq hv
    exact hlt

/-- Reachable packages have nodes in the graph. -/
theorem depChain_in_graph (packages : List (ManifestId × Manifest)) (graph : Graph)
    (hinv : GraphInv packages graph) :
    ∀ p q, DepChain packages p q →
      ∀ nds, lookupGraph graph p = some (BuildFut.build nds p) →
        ∃ ds2, lookupGraph graph q = some (BuildFut.build ds2 q) := by
  intro p q hchain
  induction hchain with
  | @direct p d m hm hd =>
    intro nds hlook
    obtain ⟨ds, m2, hshape, hm2, hsrc, hdeps⟩ := hinv _ _ hlook
    have hmeq : m2 = m := Option.some.inj (hm2.symm.trans hm)
    subst hmeq
    obtain ⟨ds2, _, hlookd⟩ := hdeps d hd
    exact ⟨ds2, hlookd⟩
  | trans hpq hqd ih1 ih2 =>
    intro nds hlook
    obtain ⟨dsq, hlq⟩ := ih1 nds hlook
    exact ih2 dsq hlq

/-- C3: in every build graph the `Builder` constructs, the node stored for a
package is the join of that package's sources node and the graph's own node
for each of its dependencies (memoized nodes keyed by `ManifestId`, so all
consumers await the same execution); and in every schedule consistent with
the graph (`Valid`), the `BuildManifest` job of the target and of every
package reachable from it starts strictly after all of that package's
`FetchSource` jobs have ended and strictly after the `BuildManifest` job of
every transitive dependency has ended. -/
theorem builder_dependency_ordering (fuel : Nat) (c : Closure) (root : BuildFut)
    (graph : Graph) (hb : buildPackage fuel c = some (root, graph)) :
    lookupGraph graph c.target = some root ∧
    (∀ q, (q = c.target ∨ DepChain c.packages c.target q) →
      ∃ ds m, lookupGraph graph q = some (BuildFut.build ds q) ∧
        lookupPkg c.packages q = some m ∧
        BuildFut.sources q m.sources ∈ ds ∧
        (∀ d ∈ m.dependencies, ∃ ds2, BuildFut.build ds2 d ∈ ds ∧
          lookupGraph graph d = some (BuildFut.build ds2 d))) ∧
    (∀ σ : BuildEvent → Nat, Valid σ root →
      ∀ q, (q = c.target ∨ DepChain c.packages c.target q) →
        ∃ m, lookupPkg c.packages q = some m ∧
          (∀ s ∈ m.sources, σ (BuildEvent.fetchEnd q s) < σ (BuildEvent.buildStart q)) ∧
          (∀ d, DepChain c.packages q d →
            σ (BuildEvent.buildEnd d) < σ (BuildEvent.buildStart q))) := by
  have hinv0 : GraphInv c.packages [] := by
    intro x n hx
    simp [lookupGraph] at hx
  unfold buildPackage at hb
  rcases hbr : buildRec fuel c.packages [c.target] [] with _ | p <;> rw [hbr] at hb
  · exact absurd hb (by simp)
  obtain ⟨nodes, g⟩ := p
  obtain ⟨hinv, _, hfa⟩ := buildRec_sound fuel c.packages [c.target] [] nodes g hbr hinv0
  cases hfa with
  | cons hroot0 hnil =>
    rename_i node rest2
    have hb2 : node = root ∧ g = graph := by
      simpa using hb
    obtain ⟨hnodeeq, hgeq⟩ := hb2
    have hroot : lookupGraph graph c.target = some root := by
      rw [← hgeq, ← hnodeeq]
      exact hroot0
    have hinvg : GraphInv c.packages graph := hgeq ▸ hinv
    obtain ⟨dsr, mr, hshaper, hmr, hsrcr, hdepsr⟩ := hinvg _ _ hroot
    have hrootb : lookupGraph graph c.target = some (BuildFut.build dsr c.target) := by
      rw [hroot, hshaper]
    have hreach : ∀ q, (q = c.target ∨ DepChain c.packages c.target q) →
        ∃ ds, lookupGraph graph q = some (BuildFut.build ds q) := by
      intro q hq
      rcases hq with rfl | hchain
      · exact ⟨dsr, hrootb⟩
      · exact depChain_in_graph c.packages graph hinvg c.target q hchain dsr hrootb
    refine ⟨hroot, ?_, ?_⟩
    · intro q hq
      obtain ⟨ds, hlq⟩ := hreach q hq
      obtain ⟨ds2, m, hshape, hm2, hsrc, hdeps⟩ := hinvg _ _ hlq
      have hdseq : ds = ds2 := by injection hshape
      subst hdseq
      exact ⟨ds, m, hlq, hm2, hsrc, hdeps⟩
    · intro σ hvroot q hq
      have hvrootb : Valid σ (BuildFut.build dsr c.target) := hshaper ▸ hvroot
      rcases hq with rfl | hchain
      · exact node_ordering c.packages graph σ hinvg c.target dsr hrootb hvrootb
      · obtain ⟨dsq, hlq, hvq, _⟩ := depChain_ordering c.packages graph σ hinvg
          c.target q hchain dsr hrootb hvrootb
        exact node_ordering c.packages graph σ hinvg q dsq hlq hvq

/-- A two-package demo closure (`foo` depends on `baz`) for evaluating the
builder pipeline at a concrete input. -/
def demoClosure : Closure :=
  ⟨⟨str "foo", str "1.0.0", fc3Hash⟩,
    [(⟨str "foo", str "1.0.0", fc3Hash⟩,
        ⟨⟨str "foo", str "1.0.0", [⟨str "baz", str "1.0.0", fc3Hash⟩], [], []⟩, [], [], []⟩),
      (⟨str "baz", str "1.0.0", fc3Hash⟩,
        ⟨⟨str "baz", str "1.0.0", [], [], []⟩, [], [], []⟩)]⟩

/-- The node the pipeline builds for `baz` in the demo closure. -/
def demoBaz : BuildFut :=
  BuildFut.build [BuildFut.sources ⟨str "baz", str "1.0.0", fc3Hash⟩ []]
    ⟨str "baz", str "1.0.0", fc3Hash⟩

/-- The root node the pipeline builds for `foo` in the demo closure. -/
def demoRoot : BuildFut :=
  BuildFut.build [BuildFut.sources ⟨str "foo", str "1.0.0", fc3Hash⟩ [], demoBaz]
    ⟨str "foo", str "1.0.0", fc3Hash⟩

/-- The graph the pipeline produces for the demo closure. -/
def demoGraph : Graph :=
  [(⟨str "baz", str "1.0.0", fc3Hash⟩, demoBaz),
    (⟨str "foo", str "1.0.0", fc3Hash⟩, demoRoot)]

/-- Witness for C3: the pipeline run on the demo closure yields the expected
root, and the ordering theorem applies to it. -/
theorem builder_dependency_ordering_witness :
    lookupGraph demoGraph demoClosure.target = some demoRoot :=
  (builder_dependency_ordering 2 demoClosure demoRoot demoGraph (by rfl)).1

end Deck
